import Mathlib

/-!
# Verification of the track-map generation core (1Lap/viewer)

Shallow embedding of the numerical pipeline of the repository:
resampling (`resampler.js`), smoothing (`smoothing.js`), the width
constraint enforcer (`constraints.js`) and the spline/width utilities
(`spline.js`).  JavaScript numbers are modelled by exact rationals `ℚ`;
JavaScript arrays by `List`; code that throws by `Except String`.
Definitions follow the source line by line; theorems settle the spec
claims about them.
-/

namespace Viewer

/-! ## Constraint enforcer — `public/js/trackMapGenerator/constraints.js` -/

/-- A planar point `{x, y}`. -/
structure PointXY where
  x : ℚ
  y : ℚ
deriving DecidableEq, Repr

/-- `projectOntoNormal(point, center, normal)` (constraints.js:8-12):
`(point.x - center[0]) * normal[0] + (point.y - center[1]) * normal[1]`. -/
def projectOntoNormal (point : PointXY) (center normal : ℚ × ℚ) : ℚ :=
  (point.x - center.1) * normal.1 + (point.y - center.2) * normal.2

/-- The inner `for (const lap of laps)` accumulation of
`enforceWidthConstraints` (constraints.js:56-62 resp. 72-78): starting from
`limit = 0`, fold over the laps, skipping laps with no point at index `i`
(`if (!point) continue;`), keeping the largest projection seen.  For the
right side the caller passes the negated normal, matching
`-projectOntoNormal(...)`. -/
def lapLimit (laps : List (List PointXY)) (i : ℕ) (center normal : ℚ × ℚ) : ℚ :=
  laps.foldl
    (fun limit lap =>
      match lap.get? i with
      | none => limit
      | some point =>
          let projection := projectOntoNormal point center normal
          if projection > limit then projection else limit)
    0

/-- Result record of `enforceWidthConstraints` (values plus the clamp
counters of `stats`; the recorded index lists are omitted). -/
structure EnforceResult where
  halfWidthLeft : List ℚ
  halfWidthRight : List ℚ
  leftClamped : ℕ
  rightClamped : ℕ

/-- Maximising `projection` (left side) or `-projection` (right side,
constraints.js:76) is the same as maximising the projection onto the
normal resp. the negated normal. -/
def sideNormal (negate : Bool) (normal0 : ℚ × ℚ) : ℚ × ℚ :=
  if negate then (-normal0.1, -normal0.2) else normal0

/-- One side of the `for (let i = 0; i < n; i++)` body of
`enforceWidthConstraints` (constraints.js:51-86).  `n` is
`centerline.length`; an entry of the copied result array is rewritten only
when `i < n` (the loop reaches it), the side has laps, and
`limit > 0 && result[i] > limit`.  `negate` selects the right-hand variant
(projection negated). -/
def enforceSide (centerline normals : List (ℚ × ℚ)) (laps : List (List PointXY))
    (halfWidth : List ℚ) (safeScale : ℚ) (negate : Bool) : List ℚ :=
  let n := centerline.length
  (List.range halfWidth.length).map fun i =>
    let value := halfWidth.getD i 0
    if i < n ∧ laps ≠ [] then
      let center := centerline.getD i (0, 0)
      let normal := sideNormal negate (normals.getD i (0, 0))
      let limit := lapLimit laps i center normal * safeScale
      if limit > 0 ∧ value > limit then limit else value
    else value

/-- `enforceWidthConstraints` (constraints.js:28-93).  `clampScale` is a
rational, so the `Number.isFinite(clampScale)` guard of line 49 is always
true and `safeScale = max(0.1, min(clampScale, 1))`.  The results start as
fresh copies of the inputs (`new Float64Array(halfWidthLeft)`), rewritten
in place by the loop. -/
def enforceWidthConstraints (centerline normals : List (ℚ × ℚ))
    (leftLaps rightLaps : List (List PointXY))
    (halfWidthLeft halfWidthRight : List ℚ) (clampScale : ℚ) : EnforceResult :=
  let safeScale := max (1/10) (min clampScale 1)
  let leftResult := enforceSide centerline normals leftLaps halfWidthLeft safeScale false
  let rightResult := enforceSide centerline normals rightLaps halfWidthRight safeScale true
  { halfWidthLeft := leftResult
    halfWidthRight := rightResult
    leftClamped := ((List.zip halfWidthLeft leftResult).filter fun p => p.1 ≠ p.2).length
    rightClamped := ((List.zip halfWidthRight rightResult).filter fun p => p.1 ≠ p.2).length }

theorem enforceSide_length (centerline normals : List (ℚ × ℚ))
    (laps : List (List PointXY)) (halfWidth : List ℚ) (safeScale : ℚ) (negate : Bool) :
    (enforceSide centerline normals laps halfWidth safeScale negate).length
      = halfWidth.length := by
  simp [enforceSide]

theorem enforceSide_le (centerline normals : List (ℚ × ℚ))
    (laps : List (List PointXY)) (halfWidth : List ℚ) (safeScale : ℚ) (negate : Bool)
    (i : ℕ) (hi : i < halfWidth.length) :
    (enforceSide centerline normals laps halfWidth safeScale negate).getD i 0
      ≤ halfWidth.getD i 0 := by
  unfold enforceSide
  rw [List.getD_eq_getElem?_getD, List.getElem?_map, List.getElem?_range hi]
  simp only [Option.map_some', Option.getD_some]
  split_ifs <;> simp_all
  linarith

theorem enforceSide_le_limit (centerline normals : List (ℚ × ℚ))
    (laps : List (List PointXY)) (halfWidth : List ℚ) (safeScale : ℚ) (negate : Bool)
    (i : ℕ) (hi : i < halfWidth.length) (hn : i < centerline.length) (hl : laps ≠ [])
    (hpos : 0 < lapLimit laps i (centerline.getD i (0, 0))
      (sideNormal negate (normals.getD i (0, 0))) * safeScale) :
    (enforceSide centerline normals laps halfWidth safeScale negate).getD i 0
      ≤ lapLimit laps i (centerline.getD i (0, 0))
        (sideNormal negate (normals.getD i (0, 0))) * safeScale := by
  unfold enforceSide
  rw [List.getD_eq_getElem?_getD, List.getElem?_map, List.getElem?_range hi]
  simp only [Option.map_some', Option.getD_some]
  rw [if_pos ⟨hn, hl⟩]
  split_ifs with h
  · exact le_refl _
  · push_neg at h
    exact h hpos

/-- C10: `enforceWidthConstraints` never increases any half-width — for
every input and every sample index each output half-width is at most the
corresponding input half-width — and the results are fresh arrays of the
same length as the inputs (the inputs themselves are untouched: the
embedding is a pure function of them). -/
theorem C10_enforce_never_increases (centerline normals : List (ℚ × ℚ))
    (leftLaps rightLaps : List (List PointXY))
    (halfWidthLeft halfWidthRight : List ℚ) (clampScale : ℚ) :
    let r := enforceWidthConstraints centerline normals leftLaps rightLaps
      halfWidthLeft halfWidthRight clampScale
    r.halfWidthLeft.length = halfWidthLeft.length ∧
    r.halfWidthRight.length = halfWidthRight.length ∧
    (∀ i, i < halfWidthLeft.length →
      r.halfWidthLeft.getD i 0 ≤ halfWidthLeft.getD i 0) ∧
    (∀ i, i < halfWidthRight.length →
      r.halfWidthRight.getD i 0 ≤ halfWidthRight.getD i 0) := by
  refine ⟨enforceSide_length _ _ _ _ _ _, enforceSide_length _ _ _ _ _ _, ?_, ?_⟩
  · intro i hi
    exact enforceSide_le _ _ _ _ _ _ i hi
  · intro i hi
    exact enforceSide_le _ _ _ _ _ _ i hi

theorem C10_enforce_never_increases_witness :
    (enforceWidthConstraints [(0, 0)] [(0, 1)] [[⟨0, 2⟩]] [] [5] [3] 1).halfWidthLeft.getD 0 0
      ≤ (5 : ℚ) := by
  have h := C10_enforce_never_increases [(0, 0)] [(0, 1)] [[⟨0, 2⟩]] [] [5] [3] 1
  exact h.2.2.1 0 (by decide)

/-- C1 as stated is false: when no raw lap point projects positively at an
index, the code's limit (which starts at `0` and is only applied when
positive) never clamps, so the output half-width can exceed the maximum
raw-lap projection times `clampScale`.  Concretely: one centreline point,
normal `(0,1)`, a single left lap point projecting to `-1`, input left
half-width `5`, `clampScale = 1` — the output is `5`, not `≤ -1`. -/
theorem C1_counterexample :
    ¬ ((enforceWidthConstraints [(0, 0)] [(0, 1)] [[⟨0, -1⟩]] [] [5] [] 1).halfWidthLeft.getD 0 0
        ≤ projectOntoNormal ⟨0, -1⟩ (0, 0) (0, 1) * 1) := by
  norm_num [enforceWidthConstraints, enforceSide, lapLimit, projectOntoNormal,
    sideNormal, List.range_succ]

/-- C1 (amended): for `clampScale ∈ [0.1, 1]`, at every index where the
maximum raw-lap projection for a side (accumulated from `0` as in the
code, hence positive exactly when some lap point projects positively) is
positive after scaling, the output half-width of `enforceWidthConstraints`
is at most that maximum projection times `clampScale`; this holds for both
sides (the right side using the negated normal, as in the code). -/
theorem C1_enforce_within_raw_envelope (centerline normals : List (ℚ × ℚ))
    (leftLaps rightLaps : List (List PointXY))
    (halfWidthLeft halfWidthRight : List ℚ) (clampScale : ℚ)
    (hs1 : 1/10 ≤ clampScale) (hs2 : clampScale ≤ 1) (i : ℕ) :
    let r := enforceWidthConstraints centerline normals leftLaps rightLaps
      halfWidthLeft halfWidthRight clampScale
    (i < halfWidthLeft.length → i < centerline.length → leftLaps ≠ [] →
      0 < lapLimit leftLaps i (centerline.getD i (0, 0)) (normals.getD i (0, 0)) →
      r.halfWidthLeft.getD i 0
        ≤ lapLimit leftLaps i (centerline.getD i (0, 0)) (normals.getD i (0, 0))
            * clampScale) ∧
    (i < halfWidthRight.length → i < centerline.length → rightLaps ≠ [] →
      0 < lapLimit rightLaps i (centerline.getD i (0, 0))
            (sideNormal true (normals.getD i (0, 0))) →
      r.halfWidthRight.getD i 0
        ≤ lapLimit rightLaps i (centerline.getD i (0, 0))
            (sideNormal true (normals.getD i (0, 0))) * clampScale) := by
  have hscale : max (1/10 : ℚ) (min clampScale 1) = clampScale := by
    rw [min_eq_left hs2, max_eq_right hs1]
  have hpos : (0 : ℚ) < clampScale := lt_of_lt_of_le (by norm_num) hs1
  constructor
  · intro hi hn hl hlim
    show (enforceSide centerline normals leftLaps halfWidthLeft
      (max (1/10) (min clampScale 1)) false).getD i 0 ≤ _
    rw [hscale]
    have := enforceSide_le_limit centerline normals leftLaps halfWidthLeft
      clampScale false i hi hn hl
      (mul_pos (by simpa [sideNormal] using hlim) hpos)
    simpa [sideNormal] using this
  · intro hi hn hl hlim
    show (enforceSide centerline normals rightLaps halfWidthRight
      (max (1/10) (min clampScale 1)) true).getD i 0 ≤ _
    rw [hscale]
    exact enforceSide_le_limit centerline normals rightLaps halfWidthRight
      clampScale true i hi hn hl (mul_pos hlim hpos)

theorem C1_enforce_within_raw_envelope_witness :
    (enforceWidthConstraints [(0, 0)] [(0, 1)] [[⟨0, 3⟩]] [] [5] [] 1).halfWidthLeft.getD 0 0
      ≤ lapLimit [[⟨0, 3⟩]] 0 (0, 0) (0, 1) * 1 := by
  have h := C1_enforce_within_raw_envelope [(0, 0)] [(0, 1)] [[⟨0, 3⟩]] [] [5] [] 1
    (by norm_num) (by norm_num) 0
  have h1 := h.1 (by norm_num) (by norm_num) (by simp)
    (by norm_num [lapLimit, projectOntoNormal])
  simpa using h1

/-! ## Resampler — `public/js/trackMapGenerator/resampler.js` -/

/-- A raw telemetry sample `{distance, x, y, z}`; `null` fields are
`none`. -/
structure Sample where
  distance : ℚ
  x : Option ℚ
  y : Option ℚ
  z : Option ℚ
deriving DecidableEq, Repr

/-- `getPlanarY(sample)` (resampler.js:16-18):
`sample.z != null ? sample.z : sample.y`. -/
def getPlanarY (sample : Sample) : Option ℚ :=
  match sample.z with
  | some v => some v
  | none => sample.y

/-- The validity filter of resampler.js:115:
`s.x != null && getPlanarY(s) != null`. -/
def isValidSample (s : Sample) : Bool :=
  s.x.isSome && (getPlanarY s).isSome

/-- A sample known to have passed the validity filter, with the planar
coordinates extracted. -/
structure ValidSample where
  distance : ℚ
  x : ℚ
  y : ℚ
deriving DecidableEq, Repr

/-- Extract the planar data of the samples passing the validity filter
(the `validSamples` array of resampler.js:115 with `x`/`getPlanarY`
already read off). -/
def validSamples (samples : List Sample) : List ValidSample :=
  (samples.filter isValidSample).map fun s =>
    { distance := s.distance
      x := s.x.getD 0
      y := (getPlanarY s).getD 0 }

/-- `calculateCumulativeDistance(samples)` (resampler.js:27-41): every
entry is just the sample's own `distance` value (`cumulative[i] =
samples[i].distance` for every `i`, including `i = 0`). -/
def calculateCumulativeDistance (samples : List ValidSample) : List ℚ :=
  samples.map (·.distance)

/-- `normalizeToProgress(cumulativeDistance)` (resampler.js:49-69):
normalise by the first/last span, producing all zeros when the span is
zero. -/
def normalizeToProgress (cumulativeDistance : List ℚ) : List ℚ :=
  match cumulativeDistance with
  | [] => []
  | d₀ :: rest =>
      let minDistance := d₀
      let maxDistance := (d₀ :: rest).getLast (by simp)
      let span := maxDistance - minDistance
      if span = 0 then List.replicate (d₀ :: rest).length 0
      else (d₀ :: rest).map fun d => (d - minDistance) / span

/-- `lerp(a, b, t)` (resampler.js:79-81). -/
def lerp (a b t : ℚ) : ℚ := a + (b - a) * t

/-- The `while (left < right)` loop of `binarySearchGE`
(resampler.js:90-104), with an explicit fuel argument: every iteration
shrinks `right - left` by at least one, so fuel `arr.length` (the initial
gap) always suffices and the fuel-exhausted branch is unreachable. -/
def binarySearchGEGo (arr : List ℚ) (target : ℚ) : ℕ → ℕ → ℕ → ℕ
  | 0, left, _ => left
  | fuel + 1, left, right =>
      if left < right then
        let mid := (left + right) / 2
        if arr.getD mid 0 < target then binarySearchGEGo arr target fuel (mid + 1) right
        else binarySearchGEGo arr target fuel left mid
      else left

/-- `binarySearchGE(arr, target)` (resampler.js:90-104): index of the
first element `≥ target` in a sorted array, or `arr.length`. -/
def binarySearchGE (arr : List ℚ) (target : ℚ) : ℕ :=
  binarySearchGEGo arr target arr.length 0 arr.length

/-- A resampled grid point `{progress, x, y}` (resampler.js:162-166). -/
structure GPoint where
  progress : ℚ
  x : ℚ
  y : ℚ
deriving DecidableEq, Repr

/-- The body of the `for (let i = 0; i < gridSize; i++)` loop of
`resampleOnGrid` (resampler.js:130-167) for one target index. -/
def resamplePoint (valid : List ValidSample) (progress : List ℚ)
    (gridSize i : ℕ) : GPoint :=
  let targetProgress := (i : ℚ) / ((gridSize : ℚ) - 1)
  let rightIdx := binarySearchGE progress targetProgress
  if rightIdx = 0 then
    { progress := targetProgress
      x := (valid.getD 0 ⟨0, 0, 0⟩).x
      y := (valid.getD 0 ⟨0, 0, 0⟩).y }
  else if rightIdx ≥ progress.length then
    let last := valid.length - 1
    { progress := targetProgress
      x := (valid.getD last ⟨0, 0, 0⟩).x
      y := (valid.getD last ⟨0, 0, 0⟩).y }
  else
    let leftIdx := rightIdx - 1
    let p₀ := progress.getD leftIdx 0
    let p₁ := progress.getD rightIdx 0
    let span := p₁ - p₀
    let t := if span > 0 then (targetProgress - p₀) / span else 0
    { progress := targetProgress
      x := lerp (valid.getD leftIdx ⟨0, 0, 0⟩).x (valid.getD rightIdx ⟨0, 0, 0⟩).x t
      y := lerp (valid.getD leftIdx ⟨0, 0, 0⟩).y (valid.getD rightIdx ⟨0, 0, 0⟩).y t }

/-- `resampleOnGrid(samples, gridSize)` (resampler.js:113-170).  Throws
(`Except.error`) exactly when fewer than two samples have valid spatial
coordinates; otherwise produces `gridSize` points at uniform target
progress `i / (gridSize - 1)`. -/
def resampleOnGrid (samples : List Sample) (gridSize : ℕ) :
    Except String (List GPoint) :=
  let valid := validSamples samples
  if valid.length < 2 then
    .error "Insufficient spatial data for resampling: need at least 2 valid samples."
  else
    let cumulative := calculateCumulativeDistance valid
    let progress := normalizeToProgress cumulative
    .ok ((List.range gridSize).map fun i => resamplePoint valid progress gridSize i)

/-- `rotateGrid(grid, angle)` (resampler.js:318-339).  The cosine and sine
of the rotation angle are taken as parameters (`Math.cos`/`Math.sin` are
transcendental); the early-return guard `!Number.isFinite(angle) ||
Math.abs(angle) < 1e-6` reduces to the magnitude test over `ℚ`.  The
spread `{...point, x, y}` keeps `progress` untouched. -/
def rotateGrid (grid : List GPoint) (angle cosA sinA : ℚ) : List GPoint :=
  if |angle| < 1/1000000 then grid
  else
    let n : ℚ := grid.length
    let cx := (grid.foldl (fun s p => s + p.x) 0) / n
    let cy := (grid.foldl (fun s p => s + p.y) 0) / n
    grid.map fun point =>
      let dx := point.x - cx
      let dy := point.y - cy
      { point with
        x := cx + dx * cosA - dy * sinA
        y := cy + dx * sinA + dy * cosA }

/-- `averageGrid(gridList, label)` (resampler.js:237-266): `none` for an
empty list, an error on a grid-size mismatch, the single grid unchanged,
or the pointwise arithmetic mean with `progress` taken from the first
grid. -/
def averageGrid (gridList : List (List GPoint)) :
    Except String (Option (List GPoint)) :=
  match gridList with
  | [] => .ok none
  | g₀ :: rest =>
      let length := g₀.length
      if (g₀ :: rest).any (fun grid => grid.length ≠ length) then
        .error "Grid size mismatch."
      else if rest = [] then .ok (some g₀)
      else
        let count : ℚ := (g₀ :: rest).length
        .ok (some ((List.range length).map fun i =>
          { progress := (g₀.getD i ⟨0, 0, 0⟩).progress
            x := ((g₀ :: rest).foldl (fun s grid => s + (grid.getD i ⟨0, 0, 0⟩).x) 0) / count
            y := ((g₀ :: rest).foldl (fun s grid => s + (grid.getD i ⟨0, 0, 0⟩).y) 0) / count }))

/-- The two `while` loops of `wrapAngle(angle)` (resampler.js:303-308)
add or subtract `2π` until the result lies in `(-π, π]`; for a positive
`pi` this is the unique representative `angle - 2π⌈(angle - π)/(2π)⌉`,
which is what this closed form computes (`pi` stands for the double
`Math.PI`). -/
def wrapAngle (pi angle : ℚ) : ℚ :=
  angle - 2 * pi * ⌈(angle - pi) / (2 * pi)⌉

/-- `medianAngle(values)` (resampler.js:310-316): `0` for an empty list,
else the middle element (odd length) or mean of the two middle elements
(even length) of the ascending sort (`[...values].sort((a, b) => a - b)`).
-/
def medianAngle (values : List ℚ) : ℚ :=
  if values = [] then 0
  else
    let sorted := values.insertionSort (· ≤ ·)
    let mid := sorted.length / 2
    if sorted.length % 2 = 1 then sorted.getD mid 0
    else (sorted.getD (mid - 1) 0 + sorted.getD mid 0) / 2

/-- The heading-alignment branch of `resampleCalibrationLaps` for a lap
after the reference (resampler.js:222-231): wrap the per-sample heading
differences, take their median (`Number.isFinite` filters nothing over
`ℚ`), and rotate the grid by the negated offset only when its magnitude
exceeds `1e-4`.  Returns the grid pushed for averaging and the recorded
heading offset.  `cosA`/`sinA` stand for `Math.cos(-offset)` /
`Math.sin(-offset)` inside `rotateGrid`. -/
def alignLap (pi : ℚ) (referenceHeading headings : List ℚ)
    (grid : List GPoint) (cosA sinA : ℚ) : List GPoint × ℚ :=
  let deltas := List.zipWith (fun angle ref => wrapAngle pi (angle - ref))
    headings referenceHeading
  let normalizedDelta := medianAngle deltas
  if |normalizedDelta| > 1/10000 then
    (rotateGrid grid (-normalizedDelta) cosA sinA, normalizedDelta)
  else (grid, normalizedDelta)

/-- C6: `resampleOnGrid` fails if and only if the trace has fewer than two
samples with valid (non-null) `x` and planar-y coordinates; with at least
two valid samples it returns a grid normally. -/
theorem C6_resample_error_iff_too_few_valid (samples : List Sample) (gridSize : ℕ) :
    (∃ e, resampleOnGrid samples gridSize = .error e) ↔
      (samples.filter isValidSample).length < 2 := by
  have hlen : (validSamples samples).length = (samples.filter isValidSample).length := by
    simp [validSamples]
  simp only [resampleOnGrid]
  split_ifs with h
  · simp only [hlen] at h
    exact ⟨fun _ => h, fun _ => ⟨_, rfl⟩⟩
  · simp only [hlen] at h
    constructor
    · rintro ⟨e, he⟩
      exact absurd he (by simp)
    · intro hlt
      exact absurd hlt h

/-- C7: on a cumulative-distance array whose first and last entries agree
(zero span), `normalizeToProgress` returns an array of the same length in
which every entry is exactly `0` (the arithmetic is exact, so no entry can
be `NaN` or infinite). -/
theorem C7_normalize_zero_span (l : List ℚ) (a : ℚ)
    (hh : l.head? = some a) (hl : l.getLast? = some a) :
    (normalizeToProgress l).length = l.length ∧
      ∀ x ∈ normalizeToProgress l, x = 0 := by
  match l with
  | [] => simp at hh
  | d₀ :: rest =>
      have hd : d₀ = a := by simpa using hh
      have hlast : (d₀ :: rest).getLast (by simp) = a := by
        rwa [List.getLast?_eq_getLast (d₀ :: rest) (by simp), Option.some_inj] at hl
      have hspan : (d₀ :: rest).getLast (by simp) - d₀ = 0 := by
        rw [hlast, hd, sub_self]
      simp only [normalizeToProgress]
      rw [if_pos hspan]
      refine ⟨by simp, ?_⟩
      intro x hx
      exact List.eq_of_mem_replicate hx

theorem C7_normalize_zero_span_witness :
    (normalizeToProgress [3, 7, 3]).length = 3 ∧
      ∀ x ∈ normalizeToProgress [3, 7, 3], x = 0 :=
  C7_normalize_zero_span [3, 7, 3] 3 (by norm_num) (by norm_num)

theorem resamplePoint_progress (valid : List ValidSample) (progress : List ℚ)
    (gridSize i : ℕ) :
    (resamplePoint valid progress gridSize i).progress
      = (i : ℚ) / ((gridSize : ℚ) - 1) := by
  simp only [resamplePoint]
  split_ifs <;> rfl

/-- C5: within one `resampleCalibrationLaps` run every grid shares the
resolved `gridSize` and the uniform progress values `i / (gridSize - 1)`:
(1) every successfully resampled grid has exactly `gridSize` points with
those progress values, regardless of the input trace; (2) the heading
rotation (`rotateGrid`) keeps length and progress values untouched; and
(3) averaging grids that share this property yields a grid with the same
property (and cannot hit the size-mismatch error). -/
theorem C5_grids_share_progress :
    (∀ (samples : List Sample) (gridSize : ℕ) (g : List GPoint),
      resampleOnGrid samples gridSize = .ok g →
      g.length = gridSize ∧ ∀ i, i < gridSize →
        (g.getD i ⟨0, 0, 0⟩).progress = (i : ℚ) / ((gridSize : ℚ) - 1)) ∧
    (∀ (grid : List GPoint) (angle cosA sinA : ℚ),
      (rotateGrid grid angle cosA sinA).length = grid.length ∧
      ∀ i, ((rotateGrid grid angle cosA sinA).getD i ⟨0, 0, 0⟩).progress
        = (grid.getD i ⟨0, 0, 0⟩).progress) ∧
    (∀ (gridList : List (List GPoint)) (N : ℕ) (gridSize : ℕ),
      gridList ≠ [] →
      (∀ g ∈ gridList, g.length = N ∧ ∀ i, i < N →
        (g.getD i ⟨0, 0, 0⟩).progress = (i : ℚ) / ((gridSize : ℚ) - 1)) →
      ∃ avg, averageGrid gridList = .ok (some avg) ∧ avg.length = N ∧
        ∀ i, i < N →
          (avg.getD i ⟨0, 0, 0⟩).progress = (i : ℚ) / ((gridSize : ℚ) - 1)) := by
  refine ⟨?_, ?_, ?_⟩
  · intro samples gridSize g hok
    simp only [resampleOnGrid] at hok
    split_ifs at hok with h
    have hg : g = (List.range gridSize).map
        (fun i => resamplePoint (validSamples samples)
          (normalizeToProgress (calculateCumulativeDistance (validSamples samples)))
          gridSize i) := (Except.ok.inj hok).symm
    subst hg
    refine ⟨by simp, ?_⟩
    intro i hi
    rw [List.getD_eq_getElem?_getD, List.getElem?_map, List.getElem?_range hi]
    simp [resamplePoint_progress]
  · intro grid angle cosA sinA
    simp only [rotateGrid]
    split_ifs with h
    · exact ⟨rfl, fun _ => rfl⟩
    · refine ⟨by simp, ?_⟩
      intro i
      by_cases hi : i < grid.length
      · rw [List.getD_eq_getElem?_getD, List.getD_eq_getElem?_getD,
          List.getElem?_map, List.getElem?_eq_getElem hi]
        rfl
      · rw [List.getD_eq_getElem?_getD, List.getD_eq_getElem?_getD,
          List.getElem?_eq_none (by simpa using not_lt.mp hi),
          List.getElem?_eq_none (not_lt.mp hi)]
  · intro gridList N gridSize hne hall
    match gridList with
    | [] => exact absurd rfl hne
    | g₀ :: rest =>
        have hg₀ := hall g₀ (by simp)
        have hany : ((g₀ :: rest).any fun grid => grid.length ≠ g₀.length) = false := by
          simp only [List.any_eq_false, decide_eq_true_eq]
          intro g hg
          simp [(hall g hg).1, hg₀.1]
        simp only [averageGrid, hany, Bool.false_eq_true, if_false]
        by_cases hrest : rest = []
        · rw [if_pos hrest]
          exact ⟨g₀, rfl, hg₀.1, hg₀.2⟩
        · rw [if_neg hrest]
          refine ⟨_, rfl, by simp [hg₀.1], ?_⟩
          intro i hi
          have hiN : i < g₀.length := by rw [hg₀.1]; exact hi
          rw [List.getD_eq_getElem?_getD, List.getElem?_map, List.getElem?_range hiN]
          simpa using hg₀.2 i hi

theorem C5_grids_share_progress_witness :
    resampleOnGrid [⟨0, some 0, some 0, none⟩, ⟨1, some 1, some 1, none⟩] 2
        = .ok [⟨0, 0, 0⟩, ⟨1, 1, 1⟩] ∧
    ([⟨0, 0, 0⟩, (⟨1, 1, 1⟩ : GPoint)] : List GPoint).length = 2 ∧
    (([⟨0, 0, 0⟩, (⟨1, 1, 1⟩ : GPoint)] : List GPoint).getD 1 ⟨0, 0, 0⟩).progress = 1 ∧
    averageGrid [[⟨0, 0, 0⟩, ⟨1, 1, 1⟩]] = .ok (some [⟨0, 0, 0⟩, ⟨1, 1, 1⟩]) := by
  have heval : resampleOnGrid
      [⟨0, some 0, some 0, none⟩, ⟨1, some 1, some 1, none⟩] 2
        = .ok [⟨0, 0, 0⟩, ⟨1, 1, 1⟩] := by
    norm_num [resampleOnGrid, validSamples, isValidSample, getPlanarY,
      calculateCumulativeDistance, normalizeToProgress, resamplePoint,
      binarySearchGE, binarySearchGEGo, lerp, List.range_succ]
  have h := C5_grids_share_progress.1
    [⟨0, some 0, some 0, none⟩, ⟨1, some 1, some 1, none⟩] 2 _ heval
  obtain ⟨avg, havg, -, -⟩ :=
    C5_grids_share_progress.2.2 [[⟨0, 0, 0⟩, ⟨1, 1, 1⟩]] 2 2
      (by simp)
      (by
        intro g hg
        simp only [List.mem_singleton] at hg
        subst hg
        refine ⟨rfl, ?_⟩
        intro i hi
        interval_cases i <;> norm_num)
  refine ⟨heval, h.1, ?_, ?_⟩
  · rw [h.2 1 (by norm_num)]
    norm_num
  · have : avg = [⟨0, 0, 0⟩, ⟨1, 1, 1⟩] := by
      have heval2 : averageGrid [[(⟨0, 0, 0⟩ : GPoint), ⟨1, 1, 1⟩]]
          = .ok (some [⟨0, 0, 0⟩, ⟨1, 1, 1⟩]) := by
        simp [averageGrid]
      rw [heval2] at havg
      simpa using havg.symm
    rw [this] at havg
    exact havg

theorem wrapAngle_zero (pi : ℚ) (hpi : 0 < pi) : wrapAngle pi 0 = 0 := by
  unfold wrapAngle
  have h2 : (2 : ℚ) * pi ≠ 0 := by positivity
  have : (0 - pi) / (2 * pi) = -(1/2 : ℚ) := by
    field_simp
    ring
  rw [this]
  norm_num

theorem getD_zero_of_all_zero (l : List ℚ) (h : ∀ x ∈ l, x = 0) (k : ℕ) :
    l.getD k 0 = 0 := by
  by_cases hk : k < l.length
  · rw [List.getD_eq_getElem?_getD, List.getElem?_eq_getElem hk]
    exact h _ (List.getElem_mem hk)
  · rw [List.getD_eq_getElem?_getD, List.getElem?_eq_none (not_lt.mp hk)]
    rfl

theorem medianAngle_zeros (l : List ℚ) (h : ∀ x ∈ l, x = 0) :
    medianAngle l = 0 := by
  have hsorted : ∀ x ∈ l.insertionSort (· ≤ ·), x = 0 := fun x hx =>
    h x ((List.perm_insertionSort (· ≤ ·) l).subset hx)
  have hz := fun k => getD_zero_of_all_zero _ hsorted k
  simp only [medianAngle]
  split_ifs with h0 h1
  · rfl
  · exact hz _
  · rw [hz, hz]
    norm_num

theorem zipWith_self {α β : Type} (f : α → α → β) (l : List α) :
    List.zipWith f l l = l.map fun a => f a a := by
  induction l with
  | nil => rfl
  | cons x xs ih => simp [List.zipWith, ih]

/-- C8: when a lap's per-sample circular headings coincide with the
reference lap's headings at every index, the heading-alignment step is a
no-op: the grid pushed for averaging is the unrotated resampled grid and
the recorded heading offset is `0`, below the `1e-4` rotation threshold.
-/
theorem C8_alignment_noop_on_equal_headings (pi : ℚ) (hpi : 0 < pi)
    (headings : List ℚ) (grid : List GPoint) (cosA sinA : ℚ) :
    alignLap pi headings headings grid cosA sinA = (grid, 0) ∧
      |(alignLap pi headings headings grid cosA sinA).2| ≤ 1/10000 := by
  have hdeltas : ∀ x ∈ List.zipWith
      (fun angle ref => wrapAngle pi (angle - ref)) headings headings, x = 0 := by
    rw [zipWith_self]
    intro x hx
    rcases List.mem_map.mp hx with ⟨a, _, rfl⟩
    rw [sub_self]
    exact wrapAngle_zero pi hpi
  have hmed := medianAngle_zeros _ hdeltas
  have halign : alignLap pi headings headings grid cosA sinA = (grid, 0) := by
    simp only [alignLap]
    rw [hmed]
    norm_num
  exact ⟨halign, by rw [halign]; norm_num⟩

theorem C8_alignment_noop_witness :
    alignLap (22/7) [1, 2] [1, 2] [⟨0, 1, 2⟩] 5 7 = ([⟨0, 1, 2⟩], 0) :=
  (C8_alignment_noop_on_equal_headings (22/7) (by norm_num) [1, 2] [⟨0, 1, 2⟩] 5 7).1

/-! ## Constant-width envelope — `js/trackMapGenerator/spline.js:444-493` -/

/-- The inside-side classification of one loop iteration of
`buildConstantWidthEnvelope` (spline.js:459-463): carry the previous
classification when `|angle| < 1e-3`, otherwise `insideLeft = angle >= 0`.
-/
def envInsideLeft (lastInsideLeft : Bool) (angle : ℚ) : Bool :=
  if |angle| < 1/1000 then lastInsideLeft else decide (angle ≥ 0)

/-- The width computation of one loop iteration of
`buildConstantWidthEnvelope` (spline.js:465-481), given the classification.
JavaScript `targetWidth * 0.95 || insideHalf * 2` picks `insideHalf * 2`
exactly when `targetWidth * 0.95` is falsy, i.e. zero over `ℚ`.  Returns
`(resultLeft[i], resultRight[i])`. -/
def envelopeStep (insideLeft : Bool) (wl wr targetWidth minWidth : ℚ) : ℚ × ℚ :=
  let insideHalf := max 0 (if insideLeft then wl else wr)
  let desiredTotal := max minWidth
    (if targetWidth * (19/20) = 0 then insideHalf * 2 else targetWidth * (19/20))
  let outsideHalf₀ := desiredTotal - insideHalf
  let outsideHalf₁ :=
    if outsideHalf₀ < insideHalf * (2/5) then insideHalf * (2/5) else outsideHalf₀
  let outsideHalf := if outsideHalf₁ < 3/4 then 3/4 else outsideHalf₁
  if insideLeft then (insideHalf, outsideHalf) else (outsideHalf, insideHalf)

/-- The `for (let i = 0; i < n; i++)` loop of `buildConstantWidthEnvelope`
(spline.js:458-482), threading `lastInsideLeft` and emitting, per index,
the classification together with the `(left, right)` pair written into the
result arrays.  `fuel` counts the remaining iterations (`n - i`). -/
def envelopeGo (hwl hwr angles : List ℚ) (targetWidth minWidth : ℚ) :
    Bool → ℕ → ℕ → List (Bool × ℚ × ℚ)
  | _, _, 0 => []
  | lastInsideLeft, i, fuel + 1 =>
      let angle := angles.getD i 0
      let insideLeft := envInsideLeft lastInsideLeft angle
      (insideLeft,
        envelopeStep insideLeft (hwl.getD i 0) (hwr.getD i 0) targetWidth minWidth) ::
        envelopeGo hwl hwr angles targetWidth minWidth insideLeft (i + 1) fuel

/-- Result record of `buildConstantWidthEnvelope`: the two half-width
arrays plus the per-sample inside classification (whose `true` count is
`insideLeftCount` of the source's stats). -/
structure EnvelopeResult where
  halfWidthLeft : List ℚ
  halfWidthRight : List ℚ
  insideFlags : List Bool

/-- `buildConstantWidthEnvelope(halfWidthLeft, halfWidthRight,
signedAngles, targetWidth)` (spline.js:444-493); `lastInsideLeft` starts
`true`, `minWidth = targetWidth > 0 ? targetWidth : 6`. -/
def buildConstantWidthEnvelope (hwl hwr angles : List ℚ) (targetWidth : ℚ) :
    EnvelopeResult :=
  let minWidth := if targetWidth > 0 then targetWidth else 6
  let pairs := envelopeGo hwl hwr angles targetWidth minWidth true 0 hwl.length
  { halfWidthLeft := pairs.map fun t => t.2.1
    halfWidthRight := pairs.map fun t => t.2.2
    insideFlags := pairs.map fun t => t.1 }

theorem envelopeGo_length (hwl hwr angles : List ℚ) (tw mw : ℚ) :
    ∀ fuel last i, (envelopeGo hwl hwr angles tw mw last i fuel).length = fuel := by
  intro fuel
  induction fuel with
  | zero => intro last i; rfl
  | succ n ih => intro last i; simpa [envelopeGo] using ih _ _

theorem envelopeGo_getD (hwl hwr angles : List ℚ) (tw mw : ℚ) :
    ∀ fuel last i₀ j, j < fuel →
      ∃ flag, (envelopeGo hwl hwr angles tw mw last i₀ fuel).getD j (true, 0, 0)
        = (flag, envelopeStep flag (hwl.getD (i₀ + j) 0) (hwr.getD (i₀ + j) 0) tw mw) := by
  intro fuel
  induction fuel with
  | zero => intro last i₀ j hj; exact absurd hj (by omega)
  | succ n ih =>
      intro last i₀ j hj
      match j with
      | 0 => exact ⟨_, rfl⟩
      | k + 1 =>
          obtain ⟨flag, hflag⟩ := ih (envInsideLeft last (angles.getD i₀ 0)) (i₀ + 1) k
            (by omega)
          refine ⟨flag, ?_⟩
          have harith : i₀ + 1 + k = i₀ + (k + 1) := by omega
          rw [harith] at hflag
          simpa [envelopeGo] using hflag

theorem ite_lt_eq_max (a b : ℚ) : (if a < b then b else a) = max a b := by
  split_ifs with h
  · exact (max_eq_right h.le).symm
  · exact (max_eq_left (not_lt.mp h)).symm

/-- C3 is wrong on the code in two places, both visible at concrete
inputs with `targetWidth = 0`:
* at `hwl = [-5]`, `hwr = [3]`, `angles = [1]` the sample is inside-left
  and the code floors the inside half-width at `0`
  (`Math.max(0, ...)`, spline.js:465), so the inside output is `0`, not
  the raw `-5`; the outside output is `6`, while the claim's formula
  `max(insideHalf*0.4, max(minWidth, targetWidth*0.95) - insideHalf, 0.75)`
  evaluates to `11`;
* at `hwl = [10]`, `hwr = [3]`, `angles = [1]` the code's
  `targetWidth * 0.95 || insideHalf * 2` (spline.js:466) falls back to
  `insideHalf * 2 = 20` because `targetWidth * 0.95 = 0` is falsy, so the
  outside output is `20 - 10 = 10`, while the claim's
  `desiredTotal = max(minWidth, targetWidth*0.95) = 6` would give `4`. -/
theorem C3_counterexample :
    ((buildConstantWidthEnvelope [-5] [3] [1] 0).halfWidthLeft.getD 0 0 = 0 ∧
      (0 : ℚ) ≠ -5 ∧
      (buildConstantWidthEnvelope [-5] [3] [1] 0).halfWidthRight.getD 0 0 = 6 ∧
      max (max ((-5 : ℚ) * (2/5)) (max 6 ((0 : ℚ) * (19/20)) - (-5))) (3/4) = 11 ∧
      (6 : ℚ) ≠ 11) ∧
    ((buildConstantWidthEnvelope [10] [3] [1] 0).halfWidthRight.getD 0 0 = 10 ∧
      max (max ((10 : ℚ) * (2/5)) (max 6 ((0 : ℚ) * (19/20)) - 10)) (3/4) = 4 ∧
      (10 : ℚ) ≠ 4) := by
  refine ⟨⟨?_, by norm_num, ?_, by norm_num, by norm_num⟩, ⟨?_, by norm_num, by norm_num⟩⟩ <;>
    norm_num [buildConstantWidthEnvelope, envelopeGo, envInsideLeft, envelopeStep]

/-- C3 (amended): at every sample index, with `insideLeft` the code's
sign-carry classification recorded for that index,
`minWidth = targetWidth` when `targetWidth > 0` (else `6`), the inside
output half-width is `max(0, raw inside half-width)` (floored at zero, not
the raw value itself) and the outside output half-width is
`max(insideHalf*0.4, desiredTotal - insideHalf, 0.75)` where
`desiredTotal = max(minWidth, targetWidth*0.95)` whenever
`targetWidth*0.95 ≠ 0`, and `max(minWidth, insideHalf*2)` when
`targetWidth*0.95 = 0` (the JavaScript `||` fallback); this holds for
every input half-width array, signed-angle array and `targetWidth`,
including `targetWidth = 0`. -/
theorem C3_envelope_formulas (hwl hwr angles : List ℚ) (targetWidth : ℚ)
    (i : ℕ) (hi : i < hwl.length) (r : EnvelopeResult)
    (hr : r = buildConstantWidthEnvelope hwl hwr angles targetWidth) :
    let minWidth := if targetWidth > 0 then targetWidth else 6
    let insideLeft := r.insideFlags.getD i true
    let raw := if insideLeft then hwl.getD i 0 else hwr.getD i 0
    let insideHalf := max 0 raw
    let desiredTotal := max minWidth
      (if targetWidth * (19/20) = 0 then insideHalf * 2 else targetWidth * (19/20))
    let outside := max (max (desiredTotal - insideHalf) (insideHalf * (2/5))) (3/4)
    (if insideLeft then r.halfWidthLeft.getD i 0 else r.halfWidthRight.getD i 0)
      = insideHalf ∧
    (if insideLeft then r.halfWidthRight.getD i 0 else r.halfWidthLeft.getD i 0)
      = outside := by
  intro minWidth
  obtain ⟨flag, hflag⟩ := envelopeGo_getD hwl hwr angles targetWidth minWidth
    hwl.length true 0 i hi
  have hlen := envelopeGo_length hwl hwr angles targetWidth minWidth hwl.length true 0
  have hi' : i < (envelopeGo hwl hwr angles targetWidth minWidth true 0 hwl.length).length := by
    rw [hlen]; exact hi
  have hL : r.halfWidthLeft.getD i 0
      = (envelopeStep flag (hwl.getD i 0) (hwr.getD i 0) targetWidth minWidth).1 := by
    rw [hr]
    show ((envelopeGo hwl hwr angles targetWidth minWidth true 0 hwl.length).map
      fun t => t.2.1).getD i 0 = _
    rw [List.getD_eq_getElem?_getD, List.getElem?_map,
      List.getElem?_eq_getElem hi']
    have := hflag
    rw [List.getD_eq_getElem?_getD, List.getElem?_eq_getElem hi'] at this
    simp only [Option.getD_some] at this ⊢
    rw [show (0 : ℕ) + i = i from by omega] at this
    rw [this]
    rfl
  have hR : r.halfWidthRight.getD i 0
      = (envelopeStep flag (hwl.getD i 0) (hwr.getD i 0) targetWidth minWidth).2 := by
    rw [hr]
    show ((envelopeGo hwl hwr angles targetWidth minWidth true 0 hwl.length).map
      fun t => t.2.2).getD i 0 = _
    rw [List.getD_eq_getElem?_getD, List.getElem?_map,
      List.getElem?_eq_getElem hi']
    have := hflag
    rw [List.getD_eq_getElem?_getD, List.getElem?_eq_getElem hi'] at this
    simp only [Option.getD_some] at this ⊢
    rw [show (0 : ℕ) + i = i from by omega] at this
    rw [this]
    rfl
  have hF : r.insideFlags.getD i true = flag := by
    rw [hr]
    show ((envelopeGo hwl hwr angles targetWidth minWidth true 0 hwl.length).map
      fun t => t.1).getD i true = _
    rw [List.getD_eq_getElem?_getD, List.getElem?_map,
      List.getElem?_eq_getElem hi']
    have := hflag
    rw [List.getD_eq_getElem?_getD, List.getElem?_eq_getElem hi'] at this
    simp only [Option.getD_some] at this ⊢
    rw [show (0 : ℕ) + i = i from by omega] at this
    rw [this]
    rfl
  rw [hF, hL, hR]
  simp only [envelopeStep]
  rw [ite_lt_eq_max, ite_lt_eq_max]
  cases flag <;> simp [max_comm, max_assoc, max_left_comm]

theorem C3_envelope_formulas_witness :
    (if (buildConstantWidthEnvelope [4] [3] [1] 10).insideFlags.getD 0 true then
        (buildConstantWidthEnvelope [4] [3] [1] 10).halfWidthLeft.getD 0 0
      else (buildConstantWidthEnvelope [4] [3] [1] 10).halfWidthRight.getD 0 0)
      = max 0 (if (buildConstantWidthEnvelope [4] [3] [1] 10).insideFlags.getD 0 true
          then (4 : ℚ) else 3) := by
  have h := (C3_envelope_formulas [4] [3] [1] 10 0 (by norm_num) _ rfl).1
  simpa using h

/-! ## Savitzky-Golay smoothing — `public/js/trackMapGenerator/smoothing.js` -/

/-- Entry `(r, c)` of a matrix represented as a list of rows. -/
def getv (m : List (List ℚ)) (r c : ℕ) : ℚ := (m.getD r []).getD c 0

/-- `transposeMatrix(matrix)` (smoothing.js:199-209). -/
def transposeMatrix (matrix : List (List ℚ)) : List (List ℚ) :=
  let rows := matrix.length
  let cols := (matrix.headD []).length
  (List.range cols).map fun j => (List.range rows).map fun i => getv matrix i j

/-- `multiplyMatrices(a, b)` (smoothing.js:211-224); the source accumulates
`result[i][j] += a[i][k] * b[k][j]` with `k` as the middle loop, summing
the same products this fold sums. -/
def multiplyMatrices (a b : List (List ℚ)) : List (List ℚ) :=
  let rows := a.length
  let cols := (b.headD []).length
  let inner := b.length
  (List.range rows).map fun i => (List.range cols).map fun j =>
    (List.range inner).foldl (fun s k => s + getv a i k * getv b k j) 0

/-- The pivot threshold `1e-12` of `invertMatrix`. -/
def pivotEps : ℚ := 1 / 1000000000000

/-- Swap rows `i` and `r` (the `temp` exchange of smoothing.js:240-242). -/
def swapRows (m : List (List ℚ)) (i r : ℕ) : List (List ℚ) :=
  let rowI := m.getD i []
  let rowR := m.getD r []
  (m.set i rowR).set r rowI

/-- One iteration `i` of the Gauss-Jordan elimination loop of
`invertMatrix` (smoothing.js:234-262): conditional swap with the first
lower row whose leading entry beats the near-zero pivot, the singularity
check, pivot-row scaling, and elimination of column `i` from every other
row. -/
def gjStep (n : ℕ) (aug : List (List ℚ)) (i : ℕ) : Except String (List (List ℚ)) :=
  let pivot := getv aug i i
  let aug₁ :=
    if |pivot| < pivotEps then
      match (List.range' (i + 1) (n - (i + 1))).find?
          (fun r => |getv aug r i| > |pivot|) with
      | some r => swapRows aug i r
      | none => aug
    else aug
  let pivot₁ := getv aug₁ i i
  if |pivot₁| < pivotEps then .error "Matrix is singular and cannot be inverted."
  else
    let pivotInv := 1 / pivot₁
    let aug₂ := aug₁.set i ((aug₁.getD i []).map fun x => x * pivotInv)
    let aug₃ := (List.range n).foldl
      (fun m r =>
        if r = i then m
        else
          let factor := getv m r i
          m.set r (List.zipWith (fun a b => a - factor * b) (m.getD r []) (m.getD i [])))
      aug₂
    .ok aug₃

/-- `invertMatrix(matrix)` (smoothing.js:226-271): augment with the
identity (`matrix.map((row, i) => [...row, ...identityRow])`), run the
elimination loop (a thrown singularity error aborts it), then read off the
right half. -/
def invertMatrix (matrix : List (List ℚ)) : Except String (List (List ℚ)) :=
  let n := matrix.length
  let augmented := (List.range n).map fun i =>
    matrix.getD i [] ++ (List.range n).map fun j => if j = i then (1 : ℚ) else 0
  match (List.range n).foldl
      (fun (acc : Except String (List (List ℚ))) i =>
        match acc with
        | .error e => .error e
        | .ok m => gjStep n m i)
      (.ok augmented) with
  | .error e => .error e
  | .ok final => .ok (final.map fun row => (row.drop n).take n)

/-- `getSavitzkyGolayKernel(windowSize, order, spacing)`
(smoothing.js:171-197), without the pure memo cache: sample positions
`(-half..half) * safeSpacing`, the polynomial design matrix `A`, and the
first row of the pseudoinverse `(AᵀA)⁻¹Aᵀ`. -/
def getSavitzkyGolayKernel (windowSize order : ℕ) (spacing : ℚ) :
    Except String (List ℚ) :=
  let half := windowSize / 2
  let safeSpacing := max spacing (1/1000)
  let samplePositions := (List.range (2 * half + 1)).map
    fun k => (((k : ℤ) - (half : ℤ) : ℤ) : ℚ) * safeSpacing
  let A := samplePositions.map fun t => (List.range (order + 1)).map fun p => t ^ p
  let AT := transposeMatrix A
  let ATA := multiplyMatrices AT A
  match invertMatrix ATA with
  | .error e => .error e
  | .ok ATAInv => .ok ((multiplyMatrices ATAInv AT).headD [])

/-- The per-index convolution of `savitzkyGolaySmooth`
(smoothing.js:288-303) with a fixed kernel and (odd, adjusted) window.
In circular mode the source wraps the window index as `(index + n) % n`;
over `ℤ` that JavaScript remainder coincides with the nonnegative
`Int.emod` used here exactly when `index + n ≥ 0`, i.e. whenever the
window does not extend more than `n` below an index
(`windowSize ≤ 2n + 1` suffices); outside that range the JavaScript code
would read out of bounds. -/
def sgApplyKernel (values kernel : List ℚ) (windowSize : ℕ) (circular : Bool) :
    List ℚ :=
  let half := windowSize / 2
  let n := values.length
  (List.range n).map fun (i : ℕ) =>
    let p := (List.range windowSize).foldl
      (fun (acc : ℚ × ℚ) (k : ℕ) =>
        let index : ℤ := (i : ℤ) + (k : ℤ) - (half : ℤ)
        if circular then
          let idx := ((index + (n : ℤ)) % (n : ℤ)).toNat
          (acc.1 + kernel.getD k 0 * values.getD idx 0,
            acc.2 + kernel.getD k 0)
        else if index < 0 ∨ (n : ℤ) ≤ index then acc
        else
          (acc.1 + kernel.getD k 0 * values.getD index.toNat 0,
            acc.2 + kernel.getD k 0))
      (0, 0)
    if p.2 ≠ 0 then p.1 / p.2 else values.getD i 0

/-- `savitzkyGolaySmooth(values, windowSize, {order, spacing, circular})`
(smoothing.js:273-306): reject windows below 3, force the window odd,
build the kernel (which can fail on a singular matrix), and convolve with
the guard `weightSum !== 0 ? sum / weightSum : values[i]`. -/
def savitzkyGolaySmooth (values : List ℚ) (windowSize₀ order : ℕ)
    (spacing : ℚ) (circular : Bool) : Except String (List ℚ) :=
  if windowSize₀ < 3 then .error "Savitzky-Golay window must be >= 3"
  else
    let windowSize := if windowSize₀ % 2 = 0 then windowSize₀ + 1 else windowSize₀
    match getSavitzkyGolayKernel windowSize order spacing with
    | .error e => .error e
    | .ok kernel => .ok (sgApplyKernel values kernel windowSize circular)

theorem getD_const (l : List ℚ) (c : ℚ) (h : ∀ x ∈ l, x = c) (k : ℕ)
    (hk : k < l.length) : l.getD k 0 = c := by
  rw [List.getD_eq_getElem?_getD, List.getElem?_eq_getElem hk]
  exact h _ (List.getElem_mem hk)

theorem sg_fold_linear (f g : ℕ → ℚ) (c : ℚ) :
    ∀ (l : List ℕ) (s₀ w₀ : ℚ), (∀ k ∈ l, f k = c * g k) →
      (l.foldl (fun acc k => (acc.1 + f k, acc.2 + g k)) (s₀, w₀)).1
        = s₀ - c * w₀
          + c * (l.foldl (fun acc k => (acc.1 + f k, acc.2 + g k)) (s₀, w₀)).2 := by
  intro l
  induction l with
  | nil => intro s₀ w₀ _; simp
  | cons k rest ih =>
      intro s₀ w₀ h
      have hk := h k (by simp)
      have := ih (s₀ + f k) (w₀ + g k) (fun j hj => h j (by simp [hj]))
      simp only [List.foldl_cons]
      rw [this, hk]
      ring

theorem sgApplyKernel_const (values kernel : List ℚ) (windowSize : ℕ) (c : ℚ)
    (hc : ∀ x ∈ values, x = c) :
    ∀ x ∈ sgApplyKernel values kernel windowSize true, x = c := by
  intro x hx
  simp only [sgApplyKernel, if_true] at hx
  obtain ⟨i, hi, rfl⟩ := List.mem_map.mp hx
  have hin : i < values.length := List.mem_range.mp hi
  have hnpos : (0 : ℤ) < (values.length : ℤ) := by
    exact_mod_cast Nat.zero_lt_of_lt hin
  have hvals : ∀ (k : ℕ),
      values.getD ((((i : ℤ) + (k : ℤ) - ((windowSize / 2 : ℕ) : ℤ)
        + (values.length : ℤ)) % (values.length : ℤ)).toNat) 0 = c := by
    intro k
    apply getD_const values c hc
    have h₁ := Int.emod_nonneg ((i : ℤ) + (k : ℤ) - ((windowSize / 2 : ℕ) : ℤ)
      + (values.length : ℤ)) (ne_of_gt hnpos)
    have h₂ := Int.emod_lt_of_pos ((i : ℤ) + (k : ℤ) - ((windowSize / 2 : ℕ) : ℤ)
      + (values.length : ℤ)) hnpos
    omega
  have hfold := sg_fold_linear
    (fun k => kernel.getD k 0 * values.getD ((((i : ℤ) + (k : ℤ)
      - ((windowSize / 2 : ℕ) : ℤ) + (values.length : ℤ))
        % (values.length : ℤ)).toNat) 0)
    (fun k => kernel.getD k 0) c (List.range windowSize) 0 0
    (by
      intro k _
      simp only []
      rw [hvals k]
      ring)
  simp only [] at hfold
  split_ifs with hps
  · rw [hfold, div_eq_iff hps]
    ring
  · exact getD_const values c hc i hin

theorem rangeOne : List.range 1 = [0] := rfl

theorem rangeTwo : List.range 2 = [0, 1] := rfl

theorem rangeThree : List.range 3 = [0, 1, 2] := rfl

theorem rangeFour : List.range 4 = [0, 1, 2, 3] := rfl

theorem rangeFive : List.range 5 = [0, 1, 2, 3, 4] := rfl

theorem gjStep433_0 : gjStep 4
    [[3, 0, 2, 0, 1, 0, 0, 0], [0, 2, 0, 2, 0, 1, 0, 0],
     [2, 0, 2, 0, 0, 0, 1, 0], [0, 2, 0, 2, 0, 0, 0, 1]] 0
    = .ok [[1, 0, 2/3, 0, 1/3, 0, 0, 0], [0, 2, 0, 2, 0, 1, 0, 0],
           [0, 0, 2/3, 0, -2/3, 0, 1, 0], [0, 2, 0, 2, 0, 0, 0, 1]] := by
  norm_num [gjStep, getv, swapRows, pivotEps, rangeFour, List.range', abs_lt]

theorem gjStep433_1 : gjStep 4
    [[1, 0, 2/3, 0, 1/3, 0, 0, 0], [0, 2, 0, 2, 0, 1, 0, 0],
     [0, 0, 2/3, 0, -2/3, 0, 1, 0], [0, 2, 0, 2, 0, 0, 0, 1]] 1
    = .ok [[1, 0, 2/3, 0, 1/3, 0, 0, 0], [0, 1, 0, 1, 0, 1/2, 0, 0],
           [0, 0, 2/3, 0, -2/3, 0, 1, 0], [0, 0, 0, 0, 0, -1, 0, 1]] := by
  norm_num [gjStep, getv, swapRows, pivotEps, rangeFour, List.range', abs_lt]

theorem gjStep433_2 : gjStep 4
    [[1, 0, 2/3, 0, 1/3, 0, 0, 0], [0, 1, 0, 1, 0, 1/2, 0, 0],
     [0, 0, 2/3, 0, -2/3, 0, 1, 0], [0, 0, 0, 0, 0, -1, 0, 1]] 2
    = .ok [[1, 0, 0, 0, 1, 0, -1, 0], [0, 1, 0, 1, 0, 1/2, 0, 0],
           [0, 0, 1, 0, -1, 0, 3/2, 0], [0, 0, 0, 0, 0, -1, 0, 1]] := by
  norm_num [gjStep, getv, swapRows, pivotEps, rangeFour, List.range', abs_lt]

theorem gjStep433_3 : gjStep 4
    [[1, 0, 0, 0, 1, 0, -1, 0], [0, 1, 0, 1, 0, 1/2, 0, 0],
     [0, 0, 1, 0, -1, 0, 3/2, 0], [0, 0, 0, 0, 0, -1, 0, 1]] 3
    = .error "Matrix is singular and cannot be inverted." := by
  norm_num [gjStep, getv, swapRows, pivotEps, rangeFour, List.range', abs_lt]

theorem invert_ATA33_singular :
    invertMatrix [[3, 0, 2, 0], [0, 2, 0, 2], [2, 0, 2, 0], [0, 2, 0, 2]]
      = .error "Matrix is singular and cannot be inverted." := by
  simp only [invertMatrix]
  norm_num [rangeFour]
  rw [gjStep433_0]
  simp only []
  rw [gjStep433_1]
  simp only []
  rw [gjStep433_2]
  simp only []
  rw [gjStep433_3]

theorem sg_kernel_33_singular : getSavitzkyGolayKernel 3 3 1
    = .error "Matrix is singular and cannot be inverted." := by
  norm_num [getSavitzkyGolayKernel, transposeMatrix, multiplyMatrices, getv,
    invert_ATA33_singular, rangeOne, rangeTwo, rangeThree, rangeFour]

set_option maxHeartbeats 800000 in
/-- C9 is wrong as stated: it quantifies over every polynomial order, but
for `order ≥ windowSize` the design matrix is rank-deficient, the exact
Gauss-Jordan elimination meets a pivot below the `1e-12` threshold, and
`savitzkyGolaySmooth` throws `Matrix is singular and cannot be inverted.`
instead of returning the constant array.  Concretely `windowSize = 3`,
`order = 3` on the constant array `[5, 5, 5]`. -/
theorem C9_counterexample :
    savitzkyGolaySmooth [5, 5, 5] 3 3 1 true
      = .error "Matrix is singular and cannot be inverted." := by
  simp only [savitzkyGolaySmooth]
  norm_num [sg_kernel_33_singular]

/-- C9 (amended): whenever the kernel construction succeeds — which
requires the Gauss-Jordan inversion of the design matrix to find every
pivot above the `1e-12` threshold; for `order ≥ windowSize` it instead
fails with a singular-matrix error — circular Savitzky-Golay smoothing of
a constant array returns the constant array exactly (in exact
arithmetic), for every window size `≥ 3` not exceeding `2n + 1` (beyond
which the source's circular index `(i + k - half + n) % n` would read out
of bounds). -/
theorem C9_sg_constant_preserved (values : List ℚ) (c : ℚ)
    (windowSize order : ℕ) (spacing : ℚ) (result : List ℚ)
    (hc : ∀ x ∈ values, x = c)
    (hw : windowSize ≤ 2 * values.length + 1)
    (hok : savitzkyGolaySmooth values windowSize order spacing true = .ok result) :
    ∀ x ∈ result, x = c := by
  simp only [savitzkyGolaySmooth] at hok
  by_cases h3 : windowSize < 3
  · rw [if_pos h3] at hok
    exact absurd hok (by simp)
  · rw [if_neg h3] at hok
    revert hok
    cases hker : getSavitzkyGolayKernel
        (if windowSize % 2 = 0 then windowSize + 1 else windowSize) order spacing with
    | error e =>
        intro hok
        exact absurd hok (by simp)
    | ok kernel =>
        intro hok
        have hres := (Except.ok.inj hok).symm
        rw [hres]
        exact sgApplyKernel_const values kernel _ c hc

theorem gjStep31_0 : gjStep 2 [[3, 0, 1, 0], [0, 2, 0, 1]] 0
    = .ok [[1, 0, 1/3, 0], [0, 2, 0, 1]] := by
  norm_num [gjStep, getv, swapRows, pivotEps, rangeTwo, List.range', abs_lt]

theorem gjStep31_1 : gjStep 2 [[1, 0, 1/3, 0], [0, 2, 0, 1]] 1
    = .ok [[1, 0, 1/3, 0], [0, 1, 0, 1/2]] := by
  norm_num [gjStep, getv, swapRows, pivotEps, rangeTwo, List.range', abs_lt]

theorem invert_ATA31 : invertMatrix [[3, 0], [0, 2]]
    = .ok [[1/3, 0], [0, 1/2]] := by
  simp only [invertMatrix]
  norm_num [rangeTwo]
  rw [gjStep31_0]
  simp only []
  rw [gjStep31_1]
  rfl

theorem sg_kernel_31 : getSavitzkyGolayKernel 3 1 1 = .ok [1/3, 1/3, 1/3] := by
  norm_num [getSavitzkyGolayKernel, transposeMatrix, multiplyMatrices, getv,
    invert_ATA31, rangeOne, rangeTwo, rangeThree]

set_option maxHeartbeats 800000 in
theorem C9_sg_constant_preserved_witness :
    savitzkyGolaySmooth [7, 7, 7, 7, 7] 3 1 1 true = .ok [7, 7, 7, 7, 7] ∧
      ∀ x ∈ ([7, 7, 7, 7, 7] : List ℚ), x = 7 := by
  have heval : savitzkyGolaySmooth [7, 7, 7, 7, 7] 3 1 1 true
      = .ok [7, 7, 7, 7, 7] := by
    simp only [savitzkyGolaySmooth]
    norm_num [sg_kernel_31, sgApplyKernel, rangeThree, rangeFive,
      Int.toNat_ofNat, List.getElem_cons_succ, List.getElem_cons_zero]
    norm_num [show Int.toNat 2 = 2 from rfl, show Int.toNat 3 = 3 from rfl,
      show Int.toNat 4 = 4 from rfl]
  exact ⟨heval, C9_sg_constant_preserved [7, 7, 7, 7, 7] 7 3 1 1 [7, 7, 7, 7, 7]
    (by norm_num) (by norm_num) heval⟩

/-! ## Anchor budget — `js/trackMapGenerator/spline.js:78-119` -/

/-- JavaScript `Set.add`: append only when absent (JS sets keep insertion
order). -/
def insertNat (s : List ℕ) (x : ℕ) : List ℕ := if x ∈ s then s else s ++ [x]

/-- The `for (let idx = 0; idx < n && indexSet.size < targetCount;
idx += straightSamples)` loop of `buildAnchorBudget` (spline.js:87-89).
`fuel` bounds the iteration count; `step ≥ 1`, so fuel `n` always
suffices. -/
def straightFill (target step n : ℕ) : ℕ → List ℕ → ℕ → List ℕ
  | 0, s, _ => s
  | fuel + 1, s, idx =>
      if idx < n ∧ s.length < target then
        straightFill target step n fuel (insertNat s idx) (idx + step)
      else s

/-- The initial bias set of `buildAnchorBudget` (spline.js:84):
`new Set(biasIndices.map((idx) => ((idx % n) + n) % n))`, kept in
insertion order like a JavaScript `Set`. -/
def anchorIndexSet₀ (n : ℕ) (biasIndices : List ℤ) : List ℕ :=
  biasIndices.foldl
    (fun s idx => insertNat s ((idx % (n : ℤ) + (n : ℤ)) % (n : ℤ)).toNat) []

/-- The curvature pass of `buildAnchorBudget` (spline.js:96-102): walk the
score-sorted index list, adding indices while the set is below target. -/
def anchorFill (target : ℕ) (L : List (ℕ × ℚ)) (s : List ℕ) : List ℕ :=
  L.foldl (fun s p => if s.length < target then insertNat s p.1 else s) s

/-- The over-target pruning of `buildAnchorBudget` (spline.js:104-113):
when the set exceeds the target, drop the lowest-scored surplus indices. -/
def anchorPrune (target : ℕ) (score : ℕ → ℚ) (s : List ℕ) : List ℕ :=
  if target < s.length then
    let sortedByCurvature :=
      (s.map fun idx => (idx, score idx)).insertionSort (fun a b => a.2 ≤ b.2)
    let toDelete := (sortedByCurvature.take (s.length - target)).map Prod.fst
    s.filter (fun idx => idx ∉ toDelete)
  else s

/-- `buildAnchorBudget(points, targetCount, options)` (spline.js:78-119).
`score idx` stands for `curvatureScore(points, idx)` (spline.js:65-76,
`|atan2(cross, dot)|` of neighbouring edges — transcendental, so taken as
a parameter; none of the size accounting depends on it).  JavaScript sorts
are modelled by insertion sort; `((idx % n) + n) % n` is the nonnegative
residue, `Int.emod`.  `straightSamples ≥ 1`, so the straight-section loop
runs at most `n` times and fuel `n` is exact. -/
def buildAnchorBudget (points : List (ℚ × ℚ)) (targetCount : ℕ)
    (biasIndices : List ℤ) (spacingMeters straightSpacing : ℚ)
    (score : ℕ → ℚ) : List (ℚ × ℚ) :=
  let n := points.length
  if n ≤ targetCount ∨ targetCount < 4 then points
  else
    let indexSet₀ := anchorIndexSet₀ n biasIndices
    let straightSamples :=
      max 1 (round (straightSpacing / max spacingMeters (1/1000))).toNat
    let indexSet₁ := straightFill targetCount straightSamples n n indexSet₀ 0
    let curvatureScores := (List.range n).map fun idx => (idx, score idx)
    let sorted := curvatureScores.insertionSort (fun a b => b.2 ≤ a.2)
    let indexSet₂ := anchorFill targetCount sorted indexSet₁
    let indexSet₃ := anchorPrune targetCount score indexSet₂
    let sortedIndices := indexSet₃.insertionSort (· ≤ ·)
    let selected := sortedIndices.map fun idx => points.getD idx (0, 0)
    if selected.length < 4 then points else selected

/-- C4 is wrong as stated: when the input already has at most
`targetCount` points the code keeps all of them (spline.js:81-83), so with
3 input points and a target budget of 40 the returned control-point set
has size `3 < 4`, violating the claimed `size ≥ 4` invariant. -/
theorem C4_counterexample :
    (buildAnchorBudget [(0, 0), (1, 0), (2, 0)] 40 [] 1 80 fun _ => 0).length = 3
      ∧ ¬ (4 : ℕ) ≤ 3 := by
  constructor
  · norm_num [buildAnchorBudget]
  · decide

theorem insertNat_nodup (s : List ℕ) (x : ℕ) (h : s.Nodup) :
    (insertNat s x).Nodup := by
  unfold insertNat
  split_ifs with hx
  · exact h
  · simp [List.nodup_append, h, hx]

theorem insertNat_mem (s : List ℕ) (x y : ℕ) :
    y ∈ insertNat s x ↔ y ∈ s ∨ y = x := by
  unfold insertNat
  split_ifs with hx
  · constructor
    · exact Or.inl
    · rintro (h | rfl) <;> assumption
  · simp

theorem insertNat_toFinset (s : List ℕ) (x : ℕ) :
    (insertNat s x).toFinset = insert x s.toFinset := by
  ext y
  simp [insertNat_mem, or_comm]

theorem insertNat_length (s : List ℕ) (x : ℕ) :
    (insertNat s x).length = if x ∈ s then s.length else s.length + 1 := by
  unfold insertNat
  split_ifs <;> simp

theorem insertNat_lt (s : List ℕ) (x n : ℕ) (hs : ∀ y ∈ s, y < n) (hx : x < n) :
    ∀ y ∈ insertNat s x, y < n := by
  intro y hy
  rcases (insertNat_mem s x y).mp hy with h | rfl
  · exact hs y h
  · exact hx

theorem straightFill_inv (target step n : ℕ) :
    ∀ (fuel : ℕ) (s : List ℕ) (idx : ℕ), s.Nodup → (∀ y ∈ s, y < n) →
      (straightFill target step n fuel s idx).Nodup ∧
        ∀ y ∈ straightFill target step n fuel s idx, y < n := by
  intro fuel
  induction fuel with
  | zero => intro s idx hs hb; exact ⟨hs, hb⟩
  | succ m ih =>
      intro s idx hs hb
      unfold straightFill
      split_ifs with h
      · exact ih (insertNat s idx) (idx + step) (insertNat_nodup s idx hs)
          (insertNat_lt s idx n hb h.1)
      · exact ⟨hs, hb⟩

theorem biasFold_inv (n : ℕ) (hn : 0 < n) (l : List ℤ) :
    ∀ (s : List ℕ), s.Nodup → (∀ y ∈ s, y < n) →
      (l.foldl (fun s idx =>
          insertNat s ((idx % (n : ℤ) + (n : ℤ)) % (n : ℤ)).toNat) s).Nodup ∧
        ∀ y ∈ l.foldl (fun s idx =>
          insertNat s ((idx % (n : ℤ) + (n : ℤ)) % (n : ℤ)).toNat) s, y < n := by
  induction l with
  | nil => intro s hs hb; exact ⟨hs, hb⟩
  | cons z rest ih =>
      intro s hs hb
      have hznn : (0 : ℤ) < (n : ℤ) := by exact_mod_cast hn
      have hlt : ((z % (n : ℤ) + (n : ℤ)) % (n : ℤ)).toNat < n := by
        have h₁ := Int.emod_nonneg (z % (n : ℤ) + (n : ℤ)) (ne_of_gt hznn)
        have h₂ := Int.emod_lt_of_pos (z % (n : ℤ) + (n : ℤ)) hznn
        omega
      exact ih (insertNat s _) (insertNat_nodup s _ hs) (insertNat_lt s _ n hb hlt)

theorem fillFold_length (target : ℕ) :
    ∀ (L : List (ℕ × ℚ)) (s : List ℕ), s.Nodup →
      ((L.foldl (fun s p => if s.length < target then insertNat s p.1 else s)
          s).length
        = if target ≤ s.length then s.length
          else min target (s.toFinset ∪ (L.map Prod.fst).toFinset).card) ∧
      (L.foldl (fun s p => if s.length < target then insertNat s p.1 else s)
          s).Nodup := by
  intro L
  induction L with
  | nil =>
      intro s hs
      refine ⟨?_, hs⟩
      simp only [List.foldl_nil, List.map_nil, List.toFinset_nil,
        Finset.union_empty]
      rw [List.toFinset_card_of_nodup hs]
      split_ifs with h
      · rfl
      · omega
  | cons p L' ih =>
      intro s hs
      simp only [List.foldl_cons]
      by_cases hlen : s.length < target
      · rw [if_pos hlen]
        obtain ⟨ihlen, ihnd⟩ := ih (insertNat s p.1) (insertNat_nodup s p.1 hs)
        refine ⟨?_, ihnd⟩
        rw [ihlen]
        by_cases hmem : p.1 ∈ s
        · have hins : insertNat s p.1 = s := by
            unfold insertNat
            rw [if_pos hmem]
          rw [hins]
          have habs : s.toFinset ∪ ((p :: L').map Prod.fst).toFinset
              = s.toFinset ∪ (L'.map Prod.fst).toFinset := by
            simp only [List.map_cons, List.toFinset_cons]
            rw [Finset.union_insert, Finset.insert_eq_self.mpr
              (Finset.mem_union_left _ (List.mem_toFinset.mpr hmem))]
          rw [habs]
        · have hlen' : (insertNat s p.1).length = s.length + 1 := by
            rw [insertNat_length, if_neg hmem]
          have hfs : (insertNat s p.1).toFinset = insert p.1 s.toFinset :=
            insertNat_toFinset s p.1
          have hgoalfs : s.toFinset ∪ ((p :: L').map Prod.fst).toFinset
              = (insertNat s p.1).toFinset ∪ (L'.map Prod.fst).toFinset := by
            simp only [List.map_cons, List.toFinset_cons, hfs]
            rw [Finset.union_insert, Finset.insert_union]
          rw [if_neg (show ¬ target ≤ s.length by omega)]
          by_cases htop : target ≤ (insertNat s p.1).length
          · rw [if_pos htop]
            have hsub : (insertNat s p.1).toFinset
                ⊆ s.toFinset ∪ ((p :: L').map Prod.fst).toFinset := by
              rw [hgoalfs]
              exact Finset.subset_union_left
            have hcard : s.length + 1
                ≤ (s.toFinset ∪ ((p :: L').map Prod.fst).toFinset).card := by
              have := Finset.card_le_card hsub
              rwa [List.toFinset_card_of_nodup (insertNat_nodup s p.1 hs),
                hlen'] at this
            rw [hlen']
            omega
          · rw [if_neg htop, hgoalfs]
      · rw [if_neg hlen]
        obtain ⟨ihlen, ihnd⟩ := ih s hs
        refine ⟨?_, ihnd⟩
        rw [ihlen, if_pos (show target ≤ s.length by omega),
          if_pos (show target ≤ s.length by omega)]

theorem length_filter_mem_split (D : List ℕ) : ∀ S : List ℕ,
    (S.filter (fun x => x ∈ D)).length + (S.filter (fun x => x ∉ D)).length
      = S.length := by
  intro S
  induction S with
  | nil => rfl
  | cons a t iht =>
      simp only [decide_not] at iht ⊢
      by_cases ha : a ∈ D <;> simp [List.filter_cons, ha, decide_not] <;> omega

theorem filter_not_mem_length (S D : List ℕ) (hS : S.Nodup) (hD : D.Nodup)
    (hsub : ∀ d ∈ D, d ∈ S) :
    (S.filter (fun x => x ∉ D)).length = S.length - D.length := by
  have hmemlen : (S.filter (fun x => x ∈ D)).length = D.length := by
    have hnd : (S.filter (fun x => x ∈ D)).Nodup := hS.filter _
    have hfs : (S.filter (fun x => x ∈ D)).toFinset = D.toFinset := by
      ext y
      simp only [List.mem_toFinset, List.mem_filter, decide_eq_true_eq]
      exact ⟨fun h => h.2, fun h => ⟨hsub y h, h⟩⟩
    have h₁ := List.toFinset_card_of_nodup hnd
    have h₂ := List.toFinset_card_of_nodup hD
    rw [hfs, h₂] at h₁
    omega
  have hsplit := length_filter_mem_split D S
  omega

theorem anchorIndexSet₀_inv (n : ℕ) (hn : 0 < n) (biasIndices : List ℤ) :
    (anchorIndexSet₀ n biasIndices).Nodup ∧
      ∀ y ∈ anchorIndexSet₀ n biasIndices, y < n :=
  biasFold_inv n hn biasIndices [] List.nodup_nil (by simp)

theorem anchorFill_length_nodup (target : ℕ) (L : List (ℕ × ℚ)) (s : List ℕ)
    (hs : s.Nodup) :
    ((anchorFill target L s).length
      = if target ≤ s.length then s.length
        else min target (s.toFinset ∪ (L.map Prod.fst).toFinset).card) ∧
    (anchorFill target L s).Nodup :=
  fillFold_length target L s hs

theorem anchorPrune_length (target : ℕ) (score : ℕ → ℚ) (s : List ℕ)
    (hnd : s.Nodup) (hge : target ≤ s.length) :
    (anchorPrune target score s).length = target := by
  simp only [anchorPrune]
  split_ifs with hlt
  · have hperm : List.Perm (((s.map fun idx => (idx, score idx)).insertionSort
        (fun a b : ℕ × ℚ => a.2 ≤ b.2)).map Prod.fst) s := by
      have h1 := (List.perm_insertionSort (fun a b : ℕ × ℚ => a.2 ≤ b.2)
        (s.map fun idx => (idx, score idx))).map Prod.fst
      have h2 : (s.map fun idx => (idx, score idx)).map Prod.fst = s := by
        rw [List.map_map]
        have hfun : (Prod.fst ∘ fun idx : ℕ => (idx, score idx)) = id :=
          funext fun x => rfl
        rw [hfun, List.map_id]
      rwa [h2] at h1
    rw [List.map_take]
    have hFnd : (((s.map fun idx => (idx, score idx)).insertionSort
        (fun a b : ℕ × ℚ => a.2 ≤ b.2)).map Prod.fst).Nodup := hperm.nodup_iff.mpr hnd
    have hDnd := hFnd.sublist (List.take_sublist (s.length - target) _)
    have hDsub : ∀ d ∈ (((s.map fun idx => (idx, score idx)).insertionSort
        (fun a b : ℕ × ℚ => a.2 ≤ b.2)).map Prod.fst).take (s.length - target),
        d ∈ s := fun d hd => hperm.mem_iff.mp (List.take_subset _ _ hd)
    rw [filter_not_mem_length s _ hnd hDnd hDsub]
    rw [List.length_take]
    have hlen : (((s.map fun idx => (idx, score idx)).insertionSort
        (fun a b : ℕ × ℚ => a.2 ≤ b.2)).map Prod.fst).length = s.length := by
      rw [List.length_map, List.length_insertionSort, List.length_map]
    rw [hlen]
    omega
  · omega

/-- C4 (amended): whenever the input point set has at least 4 points and
the configured target budget is at least 4, the control-point set produced
by `buildAnchorBudget` has size ≥ 4 and size ≤ the target budget (in fact,
it has exactly `min(#points, targetCount)` points).  As stated the claim
is false: with fewer than 4 input points the code returns them all (size
< 4), and with a target budget below 4 it also returns all points (size
can exceed the budget). -/
theorem C4_anchor_budget_size (points : List (ℚ × ℚ)) (targetCount : ℕ)
    (biasIndices : List ℤ) (spacingMeters straightSpacing : ℚ) (score : ℕ → ℚ)
    (hp : 4 ≤ points.length) (ht : 4 ≤ targetCount) :
    4 ≤ (buildAnchorBudget points targetCount biasIndices spacingMeters
          straightSpacing score).length ∧
      (buildAnchorBudget points targetCount biasIndices spacingMeters
          straightSpacing score).length ≤ targetCount := by
  simp only [buildAnchorBudget]
  by_cases hb : points.length ≤ targetCount ∨ targetCount < 4
  · rw [if_pos hb]
    rcases hb with h | h
    · exact ⟨hp, h⟩
    · omega
  · rw [if_neg hb]
    push_neg at hb
    obtain ⟨hnt, -⟩ := hb
    have hnpos : 0 < points.length := by omega
    have h₀ := anchorIndexSet₀_inv points.length hnpos biasIndices
    have h₁ := straightFill_inv targetCount
      (max 1 (round (straightSpacing / max spacingMeters (1/1000))).toNat)
      points.length points.length (anchorIndexSet₀ points.length biasIndices) 0
      h₀.1 h₀.2
    have h₂ := anchorFill_length_nodup targetCount
      (((List.range points.length).map fun idx =>
        (idx, score idx)).insertionSort fun a b : ℕ × ℚ => b.2 ≤ a.2)
      (straightFill targetCount
        (max 1 (round (straightSpacing / max spacingMeters (1/1000))).toNat)
        points.length points.length (anchorIndexSet₀ points.length biasIndices) 0)
      h₁.1
    have hmapfst : List.Perm (((((List.range points.length).map fun idx =>
        (idx, score idx)).insertionSort fun a b : ℕ × ℚ => b.2 ≤ a.2).map
          Prod.fst)) (List.range points.length) := by
      have h1 := (List.perm_insertionSort (fun a b : ℕ × ℚ => b.2 ≤ a.2)
        ((List.range points.length).map fun idx => (idx, score idx))).map Prod.fst
      have h2 : (((List.range points.length).map fun idx =>
          (idx, score idx)).map Prod.fst) = List.range points.length := by
        rw [List.map_map]
        have hfun : (Prod.fst ∘ fun idx : ℕ => (idx, score idx)) = id :=
          funext fun x => rfl
        rw [hfun, List.map_id]
      rwa [h2] at h1
    have hufin : ((straightFill targetCount
        (max 1 (round (straightSpacing / max spacingMeters (1/1000))).toNat)
        points.length points.length (anchorIndexSet₀ points.length biasIndices)
        0).toFinset
        ∪ (((((List.range points.length).map fun idx =>
            (idx, score idx)).insertionSort fun a b : ℕ × ℚ => b.2 ≤ a.2).map
              Prod.fst).toFinset)).card = points.length := by
      rw [List.toFinset_eq_of_perm _ _ hmapfst]
      rw [Finset.union_eq_right.mpr (by
        intro y hy
        rw [List.mem_toFinset] at hy
        rw [List.mem_toFinset, List.mem_range]
        exact h₁.2 y hy)]
      rw [List.toFinset_card_of_nodup (List.nodup_range _), List.length_range]
    have hge₂ : targetCount ≤ (anchorFill targetCount
        (((List.range points.length).map fun idx =>
          (idx, score idx)).insertionSort fun a b : ℕ × ℚ => b.2 ≤ a.2)
        (straightFill targetCount
          (max 1 (round (straightSpacing / max spacingMeters (1/1000))).toNat)
          points.length points.length
          (anchorIndexSet₀ points.length biasIndices) 0)).length := by
      rw [h₂.1, hufin]
      split_ifs <;> omega
    have hlen₃ := anchorPrune_length targetCount score _ h₂.2 hge₂
    have hsel : ((((anchorPrune targetCount score (anchorFill targetCount
        (((List.range points.length).map fun idx =>
          (idx, score idx)).insertionSort fun a b : ℕ × ℚ => b.2 ≤ a.2)
        (straightFill targetCount
          (max 1 (round (straightSpacing / max spacingMeters (1/1000))).toNat)
          points.length points.length
          (anchorIndexSet₀ points.length biasIndices) 0))).insertionSort
            (· ≤ ·)).map fun idx => points.getD idx (0, 0)).length)
        = targetCount := by
      rw [List.length_map, List.length_insertionSort, hlen₃]
    rw [if_neg (by rw [hsel]; omega), hsel]
    exact ⟨ht, le_refl _⟩

theorem C4_anchor_budget_size_witness :
    4 ≤ (buildAnchorBudget [(0, 0), (1, 0), (2, 0), (3, 0), (4, 0)] 4 [] 1 80
          fun _ => 0).length ∧
      (buildAnchorBudget [(0, 0), (1, 0), (2, 0), (3, 0), (4, 0)] 4 [] 1 80
          fun _ => 0).length ≤ 4 :=
  C4_anchor_budget_size [(0, 0), (1, 0), (2, 0), (3, 0), (4, 0)] 4 [] 1 80
    (fun _ => 0) (by norm_num) (by norm_num)

/-! ## Slope clamp — `js/trackMapGenerator/spline.js:620-673` -/

/-- One index of the inner `for` loop of `applySlopeClamp`
(spline.js:653-669): clamp the current value to within `perSampleLimit` of
the (already updated) previous value, reporting whether it changed. -/
def clampStep (L prev x : ℚ) : ℚ × Bool :=
  let delta := x - prev
  if delta > L then (prev + L, true)
  else if delta < -L then (prev - L, true)
  else (x, false)

/-- The inner `for (let i = 0; i < n; i++)` sweep of `applySlopeClamp`,
threading the updated previous value; the Boolean is the pass's `changed`
flag.  Index `0` is handled by `onePass`, which seeds `prev` with the
not-yet-updated last element (`(i - 1 + n) % n` for `i = 0`). -/
def passAux (L : ℚ) : ℚ → List ℚ → List ℚ × Bool
  | _, [] => ([], false)
  | prev, x :: xs =>
      let c := clampStep L prev x
      let rest := passAux L c.1 xs
      (c.1 :: rest.1, c.2 || rest.2)

/-- One full iteration of the `while (changed && iterations < n * 2)` loop
body of `applySlopeClamp` (spline.js:650-670). -/
def onePass (L : ℚ) (arr : List ℚ) : List ℚ × Bool :=
  match arr.getLast? with
  | none => ([], false)
  | some last => passAux L last arr

/-- The `while` loop of `applySlopeClamp` with its iteration budget:
`fuel` is the number of passes still allowed (`n * 2 - iterations`). -/
def applySlopeClampGo (L : ℚ) : ℕ → List ℚ → List ℚ
  | 0, arr => arr
  | fuel + 1, arr =>
      let p := onePass L arr
      if p.2 then applySlopeClampGo L fuel p.1 else p.1

/-- `applySlopeClamp(values, perSampleLimit)` (spline.js:644-673), values
only (the `flags`/`clampedCount` diagnostics do not feed back into the
values). -/
def applySlopeClamp (values : List ℚ) (L : ℚ) : List ℚ :=
  applySlopeClampGo L (2 * values.length) values

/-- Result of `clampWidthDeltas` (values plus the derived per-sample
limit; the sector summaries are diagnostics only). -/
structure ClampResult where
  halfWidthLeft : List ℚ
  halfWidthRight : List ℚ
  perSampleLimit : ℚ

/-- `clampWidthDeltas(halfWidthLeft, halfWidthRight, {spacingMeters,
maxDeltaPer10m})` (spline.js:620-642). -/
def clampWidthDeltas (hwl hwr : List ℚ) (spacingMeters maxDeltaPer10m : ℚ) :
    ClampResult :=
  let limitPerMeter := maxDeltaPer10m / 10
  let perSampleLimit := limitPerMeter * max spacingMeters (1/1000)
  { halfWidthLeft := applySlopeClamp hwl perSampleLimit
    halfWidthRight := applySlopeClamp hwr perSampleLimit
    perSampleLimit := perSampleLimit }

/-- The adjacency relation: consecutive values differ by at most `L`. -/
def slopeOk (L a b : ℚ) : Prop := |b - a| ≤ L

theorem clampStep_close (L prev x : ℚ) (hL : 0 ≤ L) :
    |(clampStep L prev x).1 - prev| ≤ L := by
  simp only [clampStep]
  split_ifs with h1 h2
  · simpa using abs_le.mpr ⟨by linarith, le_refl L⟩
  · simpa using abs_le.mpr ⟨by linarith [neg_le_neg hL], by linarith⟩
  · exact abs_le.mpr ⟨by linarith, by linarith⟩

theorem clampStep_false (L prev x : ℚ) (h : (clampStep L prev x).2 = false) :
    (clampStep L prev x).1 = x ∧ |x - prev| ≤ L := by
  simp only [clampStep] at h ⊢
  split_ifs at h ⊢ with h1 h2
  exact ⟨rfl, abs_le.mpr ⟨by linarith, by linarith⟩⟩

theorem clampStep_of_close (L prev x : ℚ) (h : |x - prev| ≤ L) :
    clampStep L prev x = (x, false) := by
  rcases abs_le.mp h with ⟨hlo, hhi⟩
  simp only [clampStep]
  rw [if_neg (by linarith), if_neg (by linarith)]

theorem passAux_length (L : ℚ) : ∀ (xs : List ℚ) (prev : ℚ),
    (passAux L prev xs).1.length = xs.length := by
  intro xs
  induction xs with
  | nil => intro prev; rfl
  | cons x xs ih => intro prev; simp [passAux, ih]

theorem passAux_chain (L : ℚ) (hL : 0 ≤ L) : ∀ (xs : List ℚ) (prev : ℚ),
    List.Chain' (slopeOk L) (prev :: (passAux L prev xs).1) := by
  intro xs
  induction xs with
  | nil => intro prev; simp [passAux]
  | cons x xs ih =>
      intro prev
      simp only [passAux]
      rw [List.chain'_cons]
      exact ⟨clampStep_close L prev x hL, ih (clampStep L prev x).1⟩

theorem passAux_false (L : ℚ) : ∀ (xs : List ℚ) (prev : ℚ),
    (passAux L prev xs).2 = false →
      (passAux L prev xs).1 = xs ∧ List.Chain' (slopeOk L) (prev :: xs) := by
  intro xs
  induction xs with
  | nil => intro prev _; simp [passAux]
  | cons x xs ih =>
      intro prev h
      simp only [passAux, Bool.or_eq_false_iff] at h
      obtain ⟨hc, hrest⟩ := h
      obtain ⟨hval, hclose⟩ := clampStep_false L prev x hc
      have hrest' := ih (clampStep L prev x).1 hrest
      rw [hval] at hrest'
      simp only [passAux, hval]
      rw [List.chain'_cons]
      exact ⟨by rw [hrest'.1], hclose, hrest'.2⟩

theorem passAux_stable (L : ℚ) : ∀ (xs : List ℚ) (prev : ℚ),
    List.Chain' (slopeOk L) (prev :: xs) → passAux L prev xs = (xs, false) := by
  intro xs
  induction xs with
  | nil => intro prev _; rfl
  | cons x xs ih =>
      intro prev h
      rw [List.chain'_cons] at h
      have hc := clampStep_of_close L prev x h.1
      simp only [passAux, hc]
      rw [ih x h.2]
      rfl

theorem getLast?_cons_ne {α : Type} (a : α) (l : List α) (h : l ≠ []) :
    (a :: l).getLast? = l.getLast? := by
  cases l with
  | nil => exact absurd rfl h
  | cons b t => rw [List.getLast?_cons_cons]

theorem teleUpper (L : ℚ) (hL : 0 ≤ L) :
    ∀ (l : List ℚ) (b y : ℚ), List.Chain' (slopeOk L) (b :: l) →
      l.getLast? = some y → y ≤ b + (l.length : ℚ) * L := by
  intro l
  induction l with
  | nil => intro b y _ hy; simp at hy
  | cons x xs ih =>
      intro b y hch hy
      rw [List.chain'_cons] at hch
      have hxb := abs_le.mp hch.1
      cases xs with
      | nil =>
          have hyx : x = y := by simpa using hy
          subst hyx
          simp only [List.length_cons, List.length_nil]
          push_cast
          linarith
      | cons z zs =>
          rw [List.getLast?_cons_cons] at hy
          have := ih x y hch.2 hy
          simp only [List.length_cons] at this ⊢
          push_cast at this ⊢
          linarith

theorem teleLower (L : ℚ) (hL : 0 ≤ L) :
    ∀ (l : List ℚ) (b y : ℚ), List.Chain' (slopeOk L) (b :: l) →
      l.getLast? = some y → b - (l.length : ℚ) * L ≤ y := by
  intro l
  induction l with
  | nil => intro b y _ hy; simp at hy
  | cons x xs ih =>
      intro b y hch hy
      rw [List.chain'_cons] at hch
      have hxb := abs_le.mp hch.1
      cases xs with
      | nil =>
          have hyx : x = y := by simpa using hy
          subst hyx
          simp only [List.length_cons, List.length_nil]
          push_cast
          linarith
      | cons z zs =>
          rw [List.getLast?_cons_cons] at hy
          have := ih x y hch.2 hy
          simp only [List.length_cons] at this ⊢
          push_cast at this ⊢
          linarith

theorem passAux_cons_eq (L prev x : ℚ) (xs : List ℚ) :
    (passAux L prev (x :: xs)).1
      = (clampStep L prev x).1 :: (passAux L (clampStep L prev x).1 xs).1 := rfl

theorem passAux_lastDown (L : ℚ) (hL : 0 ≤ L) :
    ∀ (xs : List ℚ) (b prev : ℚ), List.Chain' (slopeOk L) (b :: xs) → prev ≤ b →
      (∀ y, xs.getLast? = some y → y ≤ prev + (xs.length : ℚ) * L) →
      (passAux L prev xs).1.getLast? = xs.getLast? := by
  intro xs
  induction xs with
  | nil => intro b prev _ _ _; rfl
  | cons x rest ih =>
      intro b prev hch hpb hbound
      rw [List.chain'_cons] at hch
      have hxb := abs_le.mp hch.1
      have hxlow : -L ≤ x - prev := by linarith
      by_cases hup : x - prev > L
      · have hstep : (clampStep L prev x).1 = prev + L := by
          simp only [clampStep]
          rw [if_pos hup]
        cases rest with
        | nil =>
            exfalso
            have := hbound x (by simp)
            simp only [List.length_cons, List.length_nil] at this
            push_cast at this
            linarith
        | cons z zs =>
            rw [passAux_cons_eq, hstep]
            have hne : (passAux L (prev + L) (z :: zs)).1 ≠ [] := by
              have := passAux_length L (z :: zs) (prev + L)
              intro hcon
              rw [hcon] at this
              simp at this
            rw [getLast?_cons_ne _ _ hne, getLast?_cons_ne _ _ (by simp)]
            apply ih x (prev + L) hch.2 (by linarith)
            intro y hy
            have := hbound y (by rw [getLast?_cons_ne _ _ (by simp)]; exact hy)
            simp only [List.length_cons] at this ⊢
            push_cast at this ⊢
            linarith
      · have hstep : (clampStep L prev x).1 = x := by
          rw [clampStep_of_close L prev x (abs_le.mpr ⟨by linarith, by linarith⟩)]
        rw [passAux_cons_eq, hstep]
        cases rest with
        | nil => rfl
        | cons z zs =>
            have hne : (passAux L x (z :: zs)).1 ≠ [] := by
              have := passAux_length L (z :: zs) x
              intro hcon
              rw [hcon] at this
              simp at this
            rw [getLast?_cons_ne _ _ hne, getLast?_cons_ne _ _ (by simp)]
            apply ih x x hch.2 (le_refl x)
            intro y hy
            exact teleUpper L hL (z :: zs) x y hch.2 hy

theorem passAux_lastUp (L : ℚ) (hL : 0 ≤ L) :
    ∀ (xs : List ℚ) (b prev : ℚ), List.Chain' (slopeOk L) (b :: xs) → b ≤ prev →
      (∀ y, xs.getLast? = some y → prev - (xs.length : ℚ) * L ≤ y) →
      (passAux L prev xs).1.getLast? = xs.getLast? := by
  intro xs
  induction xs with
  | nil => intro b prev _ _ _; rfl
  | cons x rest ih =>
      intro b prev hch hpb hbound
      rw [List.chain'_cons] at hch
      have hxb := abs_le.mp hch.1
      have hxhigh : x - prev ≤ L := by linarith
      by_cases hdown : x - prev < -L
      · have hstep : (clampStep L prev x).1 = prev - L := by
          simp only [clampStep]
          rw [if_neg (by linarith), if_pos hdown]
        cases rest with
        | nil =>
            exfalso
            have := hbound x (by simp)
            simp only [List.length_cons, List.length_nil] at this
            push_cast at this
            linarith
        | cons z zs =>
            rw [passAux_cons_eq, hstep]
            have hne : (passAux L (prev - L) (z :: zs)).1 ≠ [] := by
              have := passAux_length L (z :: zs) (prev - L)
              intro hcon
              rw [hcon] at this
              simp at this
            rw [getLast?_cons_ne _ _ hne, getLast?_cons_ne _ _ (by simp)]
            apply ih x (prev - L) hch.2 (by linarith)
            intro y hy
            have := hbound y (by rw [getLast?_cons_ne _ _ (by simp)]; exact hy)
            simp only [List.length_cons] at this ⊢
            push_cast at this ⊢
            linarith
      · have hstep : (clampStep L prev x).1 = x := by
          rw [clampStep_of_close L prev x (abs_le.mpr ⟨by linarith, by linarith⟩)]
        rw [passAux_cons_eq, hstep]
        cases rest with
        | nil => rfl
        | cons z zs =>
            have hne : (passAux L x (z :: zs)).1 ≠ [] := by
              have := passAux_length L (z :: zs) x
              intro hcon
              rw [hcon] at this
              simp at this
            rw [getLast?_cons_ne _ _ hne, getLast?_cons_ne _ _ (by simp)]
            apply ih x x hch.2 (le_refl x)
            intro y hy
            exact teleLower L hL (z :: zs) x y hch.2 hy

/-- The full circular invariant: consecutive deltas and the wrap-around
delta are all within `L`. -/
def allOk (L : ℚ) (l : List ℚ) : Prop :=
  List.Chain' (slopeOk L) l ∧
    ∀ h t, l.head? = some h → l.getLast? = some t → |h - t| ≤ L

theorem onePass_length (L : ℚ) (arr : List ℚ) :
    (onePass L arr).1.length = arr.length := by
  unfold onePass
  cases harr : arr.getLast? with
  | none => simp [List.getLast?_eq_none_iff.mp harr]
  | some t => exact passAux_length L arr t

theorem onePass_chain (L : ℚ) (hL : 0 ≤ L) (arr : List ℚ) :
    List.Chain' (slopeOk L) (onePass L arr).1 := by
  unfold onePass
  cases harr : arr.getLast? with
  | none => simp
  | some t => exact (passAux_chain L hL arr t).tail

theorem onePass_false (L : ℚ) (arr : List ℚ) (h : (onePass L arr).2 = false) :
    (onePass L arr).1 = arr ∧ allOk L arr := by
  unfold onePass at h ⊢
  cases harr : arr.getLast? with
  | none =>
      rw [List.getLast?_eq_none_iff.mp harr]
      exact ⟨rfl, by simp [allOk], by simp⟩
  | some t =>
      rw [harr] at h
      obtain ⟨hvals, hch⟩ := passAux_false L arr t h
      refine ⟨hvals, hch.tail, ?_⟩
      intro hd tl hhd htl
      rw [harr] at htl
      cases arr with
      | nil => simp at hhd
      | cons x rest =>
          have hx : x = hd := by simpa using hhd
          have ht' : t = tl := by simpa using htl
          subst hx
          subst ht'
          rw [List.chain'_cons] at hch
          exact hch.1

theorem onePass_stable (L : ℚ) (arr : List ℚ) (h : allOk L arr) :
    onePass L arr = (arr, false) := by
  unfold onePass
  cases arr with
  | nil => rfl
  | cons x rest =>
      have hne : (x :: rest) ≠ [] := by simp
      rw [List.getLast?_eq_getLast_of_ne_nil hne]
      apply passAux_stable
      rw [List.chain'_cons]
      refine ⟨?_, h.1⟩
      exact h.2 x ((x :: rest).getLast hne) rfl
        (List.getLast?_eq_getLast_of_ne_nil hne)

theorem onePass_allOk (L : ℚ) (hL : 0 < L) (arr : List ℚ)
    (hch : List.Chain' (slopeOk L) arr) : allOk L (onePass L arr).1 := by
  cases arr with
  | nil => exact ⟨by simp [onePass], by simp [onePass]⟩
  | cons x₀ rest =>
      have hne : (x₀ :: rest) ≠ [] := by simp
      have hlast := List.getLast?_eq_getLast_of_ne_nil hne
      set t := (x₀ :: rest).getLast hne with hT
      show allOk L (onePass L (x₀ :: rest)).1
      have hone : (onePass L (x₀ :: rest)).1 = (passAux L t (x₀ :: rest)).1 := by
        unfold onePass
        rw [hlast]
      rw [hone]
      refine ⟨(passAux_chain L hL.le (x₀ :: rest) t).tail, ?_⟩
      by_cases hclose : |x₀ - t| ≤ L
      · have hstable := passAux_stable L (x₀ :: rest) t (by
          rw [List.chain'_cons]
          exact ⟨hclose, hch⟩)
        rw [hstable]
        intro hd tl hhd htl
        have hx : x₀ = hd := by simpa using hhd
        have ht' : t = tl := by
          rw [hlast] at htl
          simpa using htl
        subst hx
        subst ht'
        exact hclose
      · push_neg at hclose
        rcases lt_abs.mp hclose with hup | hdown
        · -- x₀ - t > L : first element clamped down to t + L
          have hstep : (clampStep L t x₀).1 = t + L := by
            simp only [clampStep]
            rw [if_pos (by linarith)]
          rw [passAux_cons_eq, hstep]
          cases rest with
          | nil =>
              exfalso
              have : t = x₀ := by simpa using hT.symm
              rw [this] at hup
              linarith
          | cons z zs =>
              have hlastrest : (z :: zs).getLast? = some t := by
                rw [← List.getLast?_cons_cons (l := zs) (a := x₀) (b := z), hlast]
              have hne₂ : (passAux L (t + L) (z :: zs)).1 ≠ [] := by
                have := passAux_length L (z :: zs) (t + L)
                intro hcon
                rw [hcon] at this
                simp at this
              have hdown₂ := passAux_lastDown L hL.le (z :: zs) x₀ (t + L) hch
                (by linarith)
                (by
                  intro y hy
                  rw [hlastrest] at hy
                  have hyt : t = y := by simpa using hy
                  subst hyt
                  have : (0 : ℚ) ≤ ((z :: zs).length : ℚ) * L :=
                    mul_nonneg (by positivity) hL.le
                  linarith)
              intro hd tl hhd htl
              have hx : t + L = hd := by simpa using hhd
              have ht' : t = tl := by
                rw [getLast?_cons_ne _ _ hne₂, hdown₂, hlastrest] at htl
                simpa using htl
              subst hx
              subst ht'
              rw [show t + L - t = L from by ring, abs_of_pos hL]
        · -- x₀ - t < -L : first element clamped up to t - L
          have hdown' : x₀ - t < -L := by linarith
          have hstep : (clampStep L t x₀).1 = t - L := by
            simp only [clampStep]
            rw [if_neg (by linarith), if_pos hdown']
          rw [passAux_cons_eq, hstep]
          cases rest with
          | nil =>
              exfalso
              have : t = x₀ := by simpa using hT.symm
              rw [this] at hdown'
              linarith
          | cons z zs =>
              have hlastrest : (z :: zs).getLast? = some t := by
                rw [← List.getLast?_cons_cons (l := zs) (a := x₀) (b := z), hlast]
              have hne₂ : (passAux L (t - L) (z :: zs)).1 ≠ [] := by
                have := passAux_length L (z :: zs) (t - L)
                intro hcon
                rw [hcon] at this
                simp at this
              have hup₂ := passAux_lastUp L hL.le (z :: zs) x₀ (t - L) hch
                (by linarith)
                (by
                  intro y hy
                  rw [hlastrest] at hy
                  have hyt : t = y := by simpa using hy
                  subst hyt
                  have : (0 : ℚ) ≤ ((z :: zs).length : ℚ) * L :=
                    mul_nonneg (by positivity) hL.le
                  linarith)
              intro hd tl hhd htl
              have hx : t - L = hd := by simpa using hhd
              have ht' : t = tl := by
                rw [getLast?_cons_ne _ _ hne₂, hup₂, hlastrest] at htl
                simpa using htl
              subst hx
              subst ht'
              rw [show t - L - t = -L from by ring, abs_neg, abs_of_pos hL]

theorem applySlopeClampGo_length (L : ℚ) :
    ∀ (fuel : ℕ) (arr : List ℚ),
      (applySlopeClampGo L fuel arr).length = arr.length := by
  intro fuel
  induction fuel with
  | zero => intro arr; rfl
  | succ f ih =>
      intro arr
      simp only [applySlopeClampGo]
      split_ifs
      · rw [ih, onePass_length]
      · rw [onePass_length]

theorem applySlopeClampGo_stable (L : ℚ) :
    ∀ (fuel : ℕ) (arr : List ℚ), allOk L arr →
      applySlopeClampGo L fuel arr = arr := by
  intro fuel
  induction fuel with
  | zero => intro arr _; rfl
  | succ f ih =>
      intro arr h
      simp only [applySlopeClampGo, onePass_stable L arr h, Bool.false_eq_true,
        if_false]

theorem applySlopeClampGo_succ (L : ℚ) (f : ℕ) (arr : List ℚ) :
    applySlopeClampGo L (f + 1) arr
      = if (onePass L arr).2 then applySlopeClampGo L f (onePass L arr).1
        else (onePass L arr).1 := rfl

theorem applySlopeClampGo_allOk (L : ℚ) (hL : 0 < L) :
    ∀ (fuel : ℕ) (arr : List ℚ), 1 ≤ fuel →
      List.Chain' (slopeOk L) arr → allOk L (applySlopeClampGo L fuel arr) := by
  intro fuel
  cases fuel with
  | zero => intro arr h; omega
  | succ f =>
      intro arr _ hch
      simp only [applySlopeClampGo]
      have hok := onePass_allOk L hL arr hch
      split_ifs
      · rw [applySlopeClampGo_stable L f _ hok]
        exact hok
      · exact hok

theorem applySlopeClamp_length (values : List ℚ) (L : ℚ) :
    (applySlopeClamp values L).length = values.length :=
  applySlopeClampGo_length L (2 * values.length) values

theorem applySlopeClamp_allOk (values : List ℚ) (L : ℚ) (hL : 0 < L) :
    allOk L (applySlopeClamp values L) := by
  unfold applySlopeClamp
  cases values with
  | nil =>
      refine ⟨by simp [applySlopeClampGo], ?_⟩
      intro h t hh _
      simp [applySlopeClampGo] at hh
  | cons v rest =>
      have hfuel : 2 * (v :: rest).length = (2 * (v :: rest).length - 1) + 1 := by
        simp only [List.length_cons]
        omega
      rw [hfuel, applySlopeClampGo_succ]
      have hchain := onePass_chain L hL.le (v :: rest)
      split_ifs with hc
      · exact applySlopeClampGo_allOk L hL _ _
          (by simp only [List.length_cons]; omega) hchain
      · obtain ⟨heq, hok⟩ := onePass_false L (v :: rest)
          ((Bool.not_eq_true _).mp hc)
        rw [heq]
        exact hok

theorem getD_head (x : ℚ) (rest : List ℚ) : (x :: rest).getD 0 0 = x := rfl

theorem getLast?_eq_getD (l : List ℚ) (h : l ≠ []) :
    l.getLast? = some (l.getD (l.length - 1) 0) := by
  induction l with
  | nil => exact absurd rfl h
  | cons x rest ih =>
      cases hrest : rest with
      | nil => rfl
      | cons z zs =>
          rw [List.getLast?_cons_cons, ← hrest, ih (by rw [hrest]; simp)]
          congr 1
          have hlen : (x :: rest).length - 1 = (rest.length - 1) + 1 := by
            rw [hrest]
            simp
          rw [hlen]
          rfl

theorem allOk_getD (L : ℚ) (l : List ℚ) (h : allOk L l) :
    ∀ i, i < l.length →
      |l.getD i 0 - l.getD ((i + l.length - 1) % l.length) 0| ≤ L := by
  intro i hi
  match i with
  | 0 =>
      cases l with
      | nil => simp at hi
      | cons x rest =>
          have hlenpos : 0 < (x :: rest).length := by simp
          have hidx : (0 + (x :: rest).length - 1) % (x :: rest).length
              = (x :: rest).length - 1 := by
            have h0 : 0 + (x :: rest).length - 1 = (x :: rest).length - 1 := by
              omega
            rw [h0]
            exact Nat.mod_eq_of_lt (by omega)
          rw [hidx, getD_head]
          exact h.2 x _ rfl (getLast?_eq_getD (x :: rest) (by simp))
  | k + 1 =>
      have hidx : (k + 1 + l.length - 1) % l.length = k := by
        have h1 : k + 1 + l.length - 1 = k + l.length := by omega
        rw [h1, Nat.add_mod_right]
        exact Nat.mod_eq_of_lt (by omega)
      rw [hidx]
      have hch := List.chain'_iff_get.mp h.1 k (by omega)
      have hk : k < l.length := by omega
      rw [List.getD_eq_getElem?_getD, List.getElem?_eq_getElem hi,
        List.getD_eq_getElem?_getD, List.getElem?_eq_getElem hk]
      simpa [slopeOk, List.get_eq_getElem] using hch

/-- C2: after `clampWidthDeltas` returns, every circular per-sample delta
`|result[i] - result[(i-1+n) % n]|` — the wrap-around pair included — is
at most the derived `perSampleLimit`, for arbitrary input half-width
arrays and any positive `maxDeltaPer10m` (which makes `perSampleLimit =
(maxDeltaPer10m/10) * max(spacingMeters, 1e-3)` positive); the output
arrays keep the input lengths.  The `2*N` pass budget always suffices: a
first sweep establishes all non-wrap constraints, a second sweep repairs
the wrap-around pair without ever touching the last element again, and a
third sweep (within budget for `N ≥ 2`) observes no change. -/
theorem C2_clamp_width_deltas (hwl hwr : List ℚ)
    (spacingMeters maxDeltaPer10m : ℚ) (hpos : 0 < maxDeltaPer10m)
    (r : ClampResult)
    (hr : r = clampWidthDeltas hwl hwr spacingMeters maxDeltaPer10m) :
    r.halfWidthLeft.length = hwl.length ∧
    r.halfWidthRight.length = hwr.length ∧
    (∀ i, i < r.halfWidthLeft.length →
      |r.halfWidthLeft.getD i 0 - r.halfWidthLeft.getD
        ((i + r.halfWidthLeft.length - 1) % r.halfWidthLeft.length) 0|
        ≤ r.perSampleLimit) ∧
    (∀ i, i < r.halfWidthRight.length →
      |r.halfWidthRight.getD i 0 - r.halfWidthRight.getD
        ((i + r.halfWidthRight.length - 1) % r.halfWidthRight.length) 0|
        ≤ r.perSampleLimit) := by
  subst hr
  have hLpos : 0 < maxDeltaPer10m / 10 * max spacingMeters (1/1000) := by
    apply mul_pos
    · positivity
    · exact lt_of_lt_of_le (by norm_num) (le_max_right spacingMeters (1/1000))
  refine ⟨applySlopeClamp_length _ _, applySlopeClamp_length _ _, ?_, ?_⟩
  · exact allOk_getD _ _ (applySlopeClamp_allOk hwl _ hLpos)
  · exact allOk_getD _ _ (applySlopeClamp_allOk hwr _ hLpos)

theorem C2_clamp_width_deltas_witness :
    |(clampWidthDeltas [0, 100] [] 1 (1/4)).halfWidthLeft.getD 0 0
      - (clampWidthDeltas [0, 100] [] 1 (1/4)).halfWidthLeft.getD
        ((0 + (clampWidthDeltas [0, 100] [] 1 (1/4)).halfWidthLeft.length - 1)
          % (clampWidthDeltas [0, 100] [] 1 (1/4)).halfWidthLeft.length) 0|
      ≤ (clampWidthDeltas [0, 100] [] 1 (1/4)).perSampleLimit := by
  have h := C2_clamp_width_deltas [0, 100] [] 1 (1/4) (by norm_num) _ rfl
  exact h.2.2.1 0 (by rw [h.1]; norm_num)

end Viewer